import Mathlib

/-
Verification of the `tk` local issue tracker (Go): the record store with
atomic mutation, the abbreviated-identifier resolver, the targeted
single-field patcher, the ticket parser/formatter round trip, and the
cycle-safe dependency-tree builder and renderer.

Go strings are modelled as `List Char` (a Go string is a byte sequence;
every input considered here is ASCII, where the two coincide), wrapped in
`String` at API boundaries.  Filesystem state is modelled explicitly as an
optional list of directory entries.
-/

/-! ## String primitives (models of Go `strings.*` on character lists) -/

/-- Model of `strings.HasPrefix(s, p)`: `p` is a leading segment of `s`. -/
def leadsWith (s p : List Char) : Bool :=
  match p, s with
  | [], _ => true
  | _ :: _, [] => false
  | a :: ps, b :: ss => a == b && leadsWith ss ps

/-- Model of `strings.Contains(s, sub)`: `sub` occurs contiguously in `s`. -/
def strContains (s sub : List Char) : Bool :=
  match s with
  | [] => leadsWith [] sub
  | _ :: rest => leadsWith s sub || strContains rest sub

/-- Model of `strings.HasSuffix(s, suf)`. -/
def endsWithL (s suf : List Char) : Bool :=
  leadsWith s.reverse suf.reverse

/-- Model of `strings.TrimSuffix(s, suf)`: drop `suf` from the end when present. -/
def trimSuffixL (s suf : List Char) : List Char :=
  if endsWithL s suf then s.take (s.length - suf.length) else s

/-- Model of `strings.Split(s, "\n")` (= `strings.SplitN(s, "\n", -1)`):
split at every newline; the empty string yields one empty piece. -/
def splitNL : List Char → List (List Char)
  | [] => [[]]
  | c :: rest =>
    if c = '\n' then [] :: splitNL rest
    else
      match splitNL rest with
      | [] => [[c]]
      | h :: t => (c :: h) :: t

/-- Model of `strings.Join(ps, "\n")`. -/
def joinNL : List (List Char) → List Char
  | [] => []
  | [p] => p
  | p :: ps => p ++ '\n' :: joinNL ps

/-- Go byte-wise string order (`<` on strings), used by `os.ReadDir`'s
sort; on ASCII this is lexicographic order of the characters. -/
def lexLe : List Char → List Char → Bool
  | [], _ => true
  | _ :: _, [] => false
  | a :: as, b :: bs => a.toNat < b.toNat || (a == b && lexLe as bs)

/-! ## `UpdateField` (src/internal/ticket/parser.go)

The Go code builds the multi-line regular expression
`(?m)^` + QuoteMeta(field) + `:.*$` and calls `MatchString` /
`ReplaceAllString` on the whole file content.  In multi-line mode `^`
matches at the start of every line, `.` does not cross a newline and `$`
matches at every line end, so a match is exactly a whole line that begins
with `field:`, and `ReplaceAllString` rewrites every such line to the
`Expand`-expansion of the replacement template `field + ": " + value`
against that match.  The model below reflects that: split into lines,
test / rewrite each line with the expanded template, rejoin.  The
insertion branch appends the template literally, as the Go loop does. -/

/-- A line matched by the pattern `(?m)^field:.*$`: it begins with `field:`. -/
def lineMatches (field line : List Char) : Bool :=
  leadsWith line (field ++ [':'])

/-- A character allowed in a `$name` reference: letter, digit or
underscore. -/
def nameChar (c : Char) : Bool := c.isAlpha || c.isDigit || c == '_'

/-- Modelled from the spec: the text a `$name` reference inserts.  The
pattern `(?m)^field:.*$` has no capturing parentheses, so the only
submatch is group 0, the whole matched line: a purely numeric name
denoting 0 (all digits `0`) inserts the match, any other numeric name is
out of range, and any name with a letter or underscore names no group;
both insert nothing. -/
def refValue (m name : List Char) : List Char :=
  if name.all (fun c => c.isDigit) then
    (if name.all (fun c => c = '0') then m else [])
  else []

/-- Modelled from the spec: parse one `$` reference (the `$` already
consumed): `name` or `{name}` with a non-empty maximal run of
letters/digits/underscores; anything else — including a brace without its
closing brace — is malformed.  Returns the inserted text and the
remaining template. -/
def extractRef (m : List Char) (rest : List Char) :
    Option (List Char × List Char) :=
  match rest with
  | '{' :: rest2 =>
    if rest2.takeWhile nameChar = [] then none
    else
      match rest2.dropWhile nameChar with
      | '}' :: after2 => some (refValue m (rest2.takeWhile nameChar), after2)
      | _ => none
  | _ =>
    if rest.takeWhile nameChar = [] then none
    else some (refValue m (rest.takeWhile nameChar), rest.dropWhile nameChar)

/-- Modelled from the spec: Go `Regexp.Expand` of a replacement template
against a match `m` (group 0 only): `$$` emits a literal `$`, a
well-formed `$` reference emits its `refValue`, a malformed `$` stays
literal, and other characters are copied.  Each step consumes at least
one template character, so the fuel `tmpl.length + 1` used by
`expandDollar` below never runs out (`expandF_fuel_stable`). -/
def expandF (m : List Char) : Nat → List Char → List Char
  | 0, _ => []
  | _ + 1, [] => []
  | fuel + 1, c :: rest =>
    if c = '$' then
      if rest.head? = some '$' then '$' :: expandF m fuel rest.tail
      else
        match extractRef m rest with
        | none => '$' :: expandF m fuel rest
        | some (val, rest3) => val ++ expandF m fuel rest3
    else c :: expandF m fuel rest

/-- `Regexp.Expand` of the template `tmpl` against the matched text `m`. -/
def expandDollar (tmpl m : List Char) : List Char :=
  expandF m (tmpl.length + 1) tmpl

/-- Model of the insertion loop of `UpdateField`: every line is kept, and
right after the first line equal to `---` the `inserted` flag is set and
`newLine` is emitted; once the flag is set the remaining lines are copied
unchanged, which is what the recursion's first branch does. -/
def insertAfterDelim (lines : List (List Char)) (newLine : List Char) :
    List (List Char) :=
  match lines with
  | [] => []
  | l :: rest =>
    if l = "---".data then l :: newLine :: rest
    else l :: insertAfterDelim rest newLine

/-- Model of `ticket.UpdateField(content, field, value)`: every matched
line is replaced by the `Expand`-expansion of the template against it;
with no match the literal template line is inserted after the first
`---`. -/
def updateFieldGo (content field value : String) : String :=
  let newLine := field.data ++ ':' :: ' ' :: value.data
  let lines := splitNL content.data
  if lines.any (lineMatches field.data) then
    ⟨joinNL (lines.map fun l =>
      if lineMatches field.data l then expandDollar newLine l else l)⟩
  else
    ⟨joinNL (insertAfterDelim lines newLine)⟩

/-! ### Line-splitting lemmas -/

theorem data_mk (l : List Char) : (String.mk l).data = l := rfl

theorem splitNL_ne_nil (l : List Char) : splitNL l ≠ [] := by
  induction l with
  | nil => simp [splitNL]
  | cons c rest ih =>
    simp only [splitNL]
    split
    · simp
    · cases h : splitNL rest with
      | nil => simp
      | cons h t => simp

theorem joinNL_splitNL (l : List Char) : joinNL (splitNL l) = l := by
  induction l with
  | nil => rfl
  | cons c rest ih =>
    simp only [splitNL]
    split
    · rename_i hc
      subst hc
      cases h : splitNL rest with
      | nil => exact absurd h (splitNL_ne_nil rest)
      | cons p ps =>
        rw [h] at ih
        cases ps with
        | nil => simpa [joinNL] using ih
        | cons q qs => simpa [joinNL] using ih
    · cases h : splitNL rest with
      | nil => exact absurd h (splitNL_ne_nil rest)
      | cons p ps =>
        rw [h] at ih
        cases ps with
        | nil => simpa [joinNL] using ih
        | cons q qs => simpa [joinNL] using ih

theorem mem_splitNL_no_newline (l : List Char) :
    ∀ p ∈ splitNL l, '\n' ∉ p := by
  induction l with
  | nil => intro p hp; simp [splitNL] at hp; simp [hp]
  | cons c rest ih =>
    intro p hp
    simp only [splitNL] at hp
    split at hp
    · rcases List.mem_cons.mp hp with h | h
      · simp [h]
      · exact ih p h
    · rename_i hc
      cases h : splitNL rest with
      | nil => exact absurd h (splitNL_ne_nil rest)
      | cons q qs =>
        rw [h] at hp
        rcases List.mem_cons.mp hp with h' | h'
        · subst h'
          intro hmem
          rcases List.mem_cons.mp hmem with h'' | h''
          · exact hc h''.symm
          · exact ih q (h ▸ List.mem_cons_self q qs) h''
        · exact ih p (h ▸ List.mem_cons_of_mem q h')

theorem splitNL_no_newline_piece (p : List Char) (hp : '\n' ∉ p) :
    splitNL p = [p] := by
  induction p with
  | nil => rfl
  | cons c cs ih =>
    have hc : c ≠ '\n' := fun hc => hp (hc ▸ List.mem_cons_self c cs)
    have hcs : '\n' ∉ cs := fun hm => hp (List.mem_cons_of_mem c hm)
    simp only [splitNL, if_neg hc, ih hcs]

theorem splitNL_append_cons (p rest : List Char) (hp : '\n' ∉ p) :
    splitNL (p ++ '\n' :: rest) = p :: splitNL rest := by
  induction p with
  | nil => simp [splitNL]
  | cons c cs ih =>
    have hc : c ≠ '\n' := fun hc => hp (hc ▸ List.mem_cons_self c cs)
    have hcs : '\n' ∉ cs := fun hm => hp (List.mem_cons_of_mem c hm)
    simp only [List.cons_append, splitNL, if_neg hc]
    rw [show cs.append ('\n' :: rest) = cs ++ '\n' :: rest from rfl, ih hcs]

theorem splitNL_joinNL (ps : List (List Char)) (hne : ps ≠ [])
    (h : ∀ p ∈ ps, '\n' ∉ p) : splitNL (joinNL ps) = ps := by
  induction ps with
  | nil => exact absurd rfl hne
  | cons p ps ih =>
    cases ps with
    | nil => exact splitNL_no_newline_piece p (h p (List.mem_cons_self _ _))
    | cons q qs =>
      have hp : '\n' ∉ p := h p (List.mem_cons_self _ _)
      have hrest : ∀ r ∈ q :: qs, '\n' ∉ r := fun r hr =>
        h r (List.mem_cons_of_mem p hr)
      simp only [joinNL]
      rw [splitNL_append_cons p _ hp, ih (by simp) hrest]

/-- Specification form of the insertion pass: the new line goes right
after the first `---` line; content without a `---` line is unchanged. -/
def insertSpec (lines : List (List Char)) (newLine : List Char) :
    List (List Char) :=
  if "---".data ∈ lines then
    lines.takeWhile (fun l => l ≠ "---".data)
      ++ "---".data :: newLine :: (lines.dropWhile (fun l => l ≠ "---".data)).tail
  else lines

theorem insertAfterDelim_eq_insertSpec (lines : List (List Char))
    (newLine : List Char) :
    insertAfterDelim lines newLine = insertSpec lines newLine := by
  induction lines with
  | nil => simp [insertAfterDelim, insertSpec]
  | cons l rest ih =>
    by_cases hl : l = "---".data
    · subst hl
      simp [insertAfterDelim, insertSpec, List.takeWhile, List.dropWhile]
    · rw [show insertAfterDelim (l :: rest) newLine
          = l :: insertAfterDelim rest newLine by
        simp [insertAfterDelim, hl]]
      rw [ih]
      by_cases hmem : "---".data ∈ rest
      · have hmem' : "---".data ∈ l :: rest := List.mem_cons_of_mem l hmem
        simp [insertSpec, hmem, hmem', List.takeWhile, List.dropWhile, hl]
      · have hmem' : "---".data ∉ l :: rest := by
          intro h
          rcases List.mem_cons.mp h with h' | h'
          · exact hl h'.symm
          · exact hmem h'
        simp [insertSpec, hmem, hmem']

/-! ### Expansion lemmas -/

theorem extractRef_length (m rest val rest3 : List Char)
    (h : extractRef m rest = some (val, rest3)) :
    rest3.length < rest.length := by
  unfold extractRef at h
  split at h
  · rename_i rest2
    split at h
    · cases h
    · split at h
      · rename_i after2 heq
        injection h with h1
        have h2 : rest3 = after2 := (congrArg Prod.snd h1).symm
        subst h2
        have h3 := (List.dropWhile_sublist nameChar (l := rest2)).length_le
        rw [heq] at h3
        simp only [List.length_cons] at h3 ⊢
        omega
      · cases h
  · split at h
    · cases h
    · rename_i hne
      injection h with h1
      have h2 : rest3 = rest.dropWhile nameChar :=
        (congrArg Prod.snd h1).symm
      subst h2
      have h3 := congrArg List.length (List.takeWhile_append_dropWhile
        (p := nameChar) (l := rest))
      rw [List.length_append] at h3
      have h4 : 1 ≤ (rest.takeWhile nameChar).length :=
        List.length_pos.mpr hne
      omega

theorem refValue_mem (m name : List Char) :
    ∀ c ∈ refValue m name, c ∈ m := by
  intro c hc
  unfold refValue at hc
  split at hc
  · split at hc
    · exact hc
    · cases hc
  · cases hc

theorem extractRef_mem (m rest val rest3 : List Char)
    (h : extractRef m rest = some (val, rest3)) :
    (∀ c ∈ val, c ∈ m) ∧ ∀ c ∈ rest3, c ∈ rest := by
  unfold extractRef at h
  split at h
  · rename_i rest2
    split at h
    · cases h
    · split at h
      · rename_i after2 heq
        injection h with h1
        have hv : val = refValue m (rest2.takeWhile nameChar) :=
          (congrArg Prod.fst h1).symm
        have h2 : rest3 = after2 := (congrArg Prod.snd h1).symm
        subst h2
        refine ⟨fun c hc => refValue_mem _ _ c (hv ▸ hc), fun c hc => ?_⟩
        have h3 : c ∈ rest2.dropWhile nameChar := by
          rw [heq]
          exact List.mem_cons_of_mem _ hc
        exact List.mem_cons_of_mem _
          ((List.dropWhile_sublist nameChar).mem h3)
      · cases h
  · split at h
    · cases h
    · injection h with h1
      have hv : val = refValue m (rest.takeWhile nameChar) :=
        (congrArg Prod.fst h1).symm
      have h2 : rest3 = rest.dropWhile nameChar :=
        (congrArg Prod.snd h1).symm
      subst h2
      exact ⟨fun c hc => refValue_mem _ _ c (hv ▸ hc),
        fun c hc => (List.dropWhile_sublist nameChar).mem hc⟩

theorem expandF_no_dollar (m : List Char) :
    ∀ fuel tmpl, tmpl.length < fuel → '$' ∉ tmpl →
      expandF m fuel tmpl = tmpl := by
  intro fuel
  induction fuel with
  | zero => exact fun tmpl h _ => absurd h (Nat.not_lt_zero _)
  | succ fuel ih =>
    intro tmpl hlen hd
    cases tmpl with
    | nil => rfl
    | cons c rest =>
      have hc : c ≠ '$' := fun hc =>
        hd (hc ▸ List.mem_cons_self _ _)
      have hlen2 : rest.length < fuel := by
        simp only [List.length_cons] at hlen
        omega
      simp only [expandF]
      rw [if_neg hc,
        ih rest hlen2 (fun hm => hd (List.mem_cons_of_mem _ hm))]

theorem expandF_mem (m : List Char) :
    ∀ fuel tmpl c, c ∈ expandF m fuel tmpl → c ∈ tmpl ∨ c ∈ m := by
  intro fuel
  induction fuel with
  | zero => intro tmpl c hc; cases hc
  | succ fuel ih =>
    intro tmpl c hc
    cases tmpl with
    | nil => cases hc
    | cons a rest =>
      simp only [expandF] at hc
      by_cases ha : a = '$'
      · rw [if_pos ha] at hc
        by_cases hh : rest.head? = some '$'
        · rw [if_pos hh] at hc
          rcases List.mem_cons.mp hc with rfl | hc2
          · exact Or.inl (ha ▸ List.mem_cons_self _ _)
          · rcases ih rest.tail c hc2 with h | h
            · exact Or.inl (List.mem_cons_of_mem _
                ((List.tail_sublist rest).mem h))
            · exact Or.inr h
        · rw [if_neg hh] at hc
          cases hext : extractRef m rest with
          | none =>
            rw [hext] at hc
            rcases List.mem_cons.mp hc with rfl | hc2
            · exact Or.inl (ha ▸ List.mem_cons_self _ _)
            · rcases ih rest c hc2 with h | h
              · exact Or.inl (List.mem_cons_of_mem _ h)
              · exact Or.inr h
          | some pr =>
            obtain ⟨val, rest3⟩ := pr
            rw [hext] at hc
            rcases List.mem_append.mp hc with hc2 | hc2
            · exact Or.inr ((extractRef_mem m rest val rest3 hext).1 c hc2)
            · rcases ih rest3 c hc2 with h | h
              · exact Or.inl (List.mem_cons_of_mem _
                  ((extractRef_mem m rest val rest3 hext).2 c h))
              · exact Or.inr h
      · rw [if_neg ha] at hc
        rcases List.mem_cons.mp hc with rfl | hc2
        · exact Or.inl (List.mem_cons_self _ _)
        · rcases ih rest c hc2 with h | h
          · exact Or.inl (List.mem_cons_of_mem _ h)
          · exact Or.inr h

theorem expandF_fuel_stable (m : List Char) :
    ∀ f₁ f₂ tmpl, tmpl.length < f₁ → tmpl.length < f₂ →
      expandF m f₁ tmpl = expandF m f₂ tmpl := by
  intro f₁
  induction f₁ with
  | zero => exact fun f₂ tmpl h _ => absurd h (Nat.not_lt_zero _)
  | succ f₁ ih =>
    intro f₂ tmpl h1 h2
    cases f₂ with
    | zero => exact absurd h2 (Nat.not_lt_zero _)
    | succ f₂ =>
      cases tmpl with
      | nil => rfl
      | cons a rest =>
        simp only [List.length_cons] at h1 h2
        simp only [expandF]
        by_cases ha : a = '$'
        · rw [if_pos ha, if_pos ha]
          by_cases hh : rest.head? = some '$'
          · rw [if_pos hh, if_pos hh]
            have htl := (List.tail_sublist rest).length_le
            rw [ih f₂ rest.tail (by omega) (by omega)]
          · rw [if_neg hh, if_neg hh]
            cases hext : extractRef m rest with
            | none => rw [ih f₂ rest (by omega) (by omega)]
            | some pr =>
              obtain ⟨val, rest3⟩ := pr
              have hel := extractRef_length m rest val rest3 hext
              dsimp only
              rw [ih f₂ rest3 (by omega) (by omega)]
        · rw [if_neg ha, if_neg ha, ih f₂ rest (by omega) (by omega)]

theorem expandDollar_no_dollar (tmpl m : List Char) (hd : '$' ∉ tmpl) :
    expandDollar tmpl m = tmpl :=
  expandF_no_dollar m (tmpl.length + 1) tmpl (Nat.lt_succ_self _) hd

theorem expandDollar_mem (tmpl m : List Char) (c : Char)
    (hc : c ∈ expandDollar tmpl m) : c ∈ tmpl ∨ c ∈ m :=
  expandF_mem m (tmpl.length + 1) tmpl c hc

/-- C1, counterexample: with content whose body also holds a line starting
with `status:`, `UpdateField` rewrites the body line too — the result is
not the header-only patch the claim describes. -/
theorem updateFieldGo_rewrites_body_line :
    updateFieldGo "---\nstatus: open\n---\n# T\n\nstatus: draft"
        "status" "closed"
      = "---\nstatus: closed\n---\n# T\n\nstatus: closed" ∧
    updateFieldGo "---\nstatus: open\n---\n# T\n\nstatus: draft"
        "status" "closed"
      ≠ "---\nstatus: closed\n---\n# T\n\nstatus: draft" := by
  constructor
  · decide
  · decide

/-- C1 (amended): `UpdateField` rewrites every line of the file that
begins with `field:` — anywhere, header block or body — to the
`Expand`-expansion of the template `field: value` against that line (so a
`$`-free field and value give the literal `field: value`, while e.g. the
value `$0` re-inserts the matched line); when no line begins with
`field:`, the literal new line is inserted immediately after the first
`---` line, and content with no `---` line at all is left unchanged. -/
theorem updateFieldGo_characterization (content field value : String)
    (hf : '\n' ∉ field.data) (hv : '\n' ∉ value.data) :
    ((splitNL content.data).any (lineMatches field.data) = true →
      splitNL (updateFieldGo content field value).data
        = (splitNL content.data).map
            (fun l => if lineMatches field.data l
              then expandDollar (field.data ++ ':' :: ' ' :: value.data) l
              else l)) ∧
    ((splitNL content.data).any (lineMatches field.data) = false →
      splitNL (updateFieldGo content field value).data
        = insertSpec (splitNL content.data)
            (field.data ++ ':' :: ' ' :: value.data)) ∧
    ('$' ∉ field.data → '$' ∉ value.data → ∀ l : List Char,
      expandDollar (field.data ++ ':' :: ' ' :: value.data) l
        = field.data ++ ':' :: ' ' :: value.data) := by
  have hnewline : '\n' ∉ field.data ++ ':' :: ' ' :: value.data := by
    intro hmem
    rcases List.mem_append.mp hmem with h | h
    · exact hf h
    · rcases List.mem_cons.mp h with h' | h'
      · exact absurd h'.symm (by decide)
      · rcases List.mem_cons.mp h' with h'' | h''
        · exact absurd h''.symm (by decide)
        · exact hv h''
  refine ⟨?_, ?_, ?_⟩
  · intro hmatch
    unfold updateFieldGo
    rw [if_pos hmatch, data_mk]
    apply splitNL_joinNL
    · simp [splitNL_ne_nil content.data]
    · intro p hp
      rcases List.mem_map.mp hp with ⟨q, hq, hpq⟩
      by_cases hm : lineMatches field.data q
      · rw [if_pos hm] at hpq
        subst hpq
        intro hmem
        rcases expandDollar_mem _ _ _ hmem with h | h
        · exact hnewline h
        · exact mem_splitNL_no_newline content.data q hq h
      · rw [if_neg hm] at hpq
        exact hpq ▸ mem_splitNL_no_newline content.data q hq
  · intro hnomatch
    unfold updateFieldGo
    rw [if_neg (by rw [hnomatch]; exact Bool.false_ne_true), data_mk,
      insertAfterDelim_eq_insertSpec]
    apply splitNL_joinNL
    · simp only [insertSpec]
      split
      · intro hcon
        rcases List.append_eq_nil.mp hcon with ⟨_, h2⟩
        exact List.cons_ne_nil _ _ h2
      · exact splitNL_ne_nil content.data
    · intro p hp
      simp only [insertSpec] at hp
      split at hp
      · rcases List.mem_append.mp hp with h | h
        · exact mem_splitNL_no_newline content.data p
            ((List.takeWhile_sublist _).mem h)
        · rcases List.mem_cons.mp h with h' | h'
          · subst h'; decide
          · rcases List.mem_cons.mp h' with h'' | h''
            · exact h'' ▸ hnewline
            · exact mem_splitNL_no_newline content.data p
                ((List.dropWhile_sublist _).mem (List.mem_of_mem_tail h''))
      · exact mem_splitNL_no_newline content.data p hp
  · intro hdf hdv l
    apply expandDollar_no_dollar
    intro hmem
    rcases List.mem_append.mp hmem with h | h
    · exact hdf h
    · rcases List.mem_cons.mp h with h' | h'
      · exact absurd h'.symm (by decide)
      · rcases List.mem_cons.mp h' with h'' | h''
        · exact absurd h''.symm (by decide)
        · exact hdv h''

/-- C1 witness: the characterization applied to a concrete file where the
`priority` field is absent, showing the line inserted after the opening
delimiter; and to a `status` update whose value is `$0`, showing the
matched line re-inserted by the `$`-expansion. -/
theorem updateFieldGo_characterization_witness :
    splitNL (updateFieldGo "---\nid: a\n---\n# T" "priority" "3").data
      = ["---".data, "priority: 3".data, "id: a".data, "---".data,
         "# T".data]
    ∧ splitNL (updateFieldGo "---\nstatus: open\n---\n# T" "status"
          "$0").data
      = ["---".data, "status: status: open".data, "---".data,
         "# T".data] :=
  ⟨((updateFieldGo_characterization "---\nid: a\n---\n# T" "priority" "3"
      (by decide) (by decide)).2.1 (by decide)).trans (by decide),
   ((updateFieldGo_characterization "---\nstatus: open\n---\n# T" "status"
      "$0" (by decide) (by decide)).1 (by decide)).trans (by decide)⟩

/-! ## Filesystem model and the ID resolver (`ResolveID`)

The storage root is modelled as `Option (List DirEntry)`: `none` is a
missing tickets directory (`os.IsNotExist`), `some d` a directory whose
entries are `d` in the order `os.ReadDir` returns them (`os.ReadDir`
sorts entries by filename, which theorems take as a hypothesis where it
matters). -/

structure DirEntry where
  name : String
  isDir : Bool
  content : String
deriving DecidableEq

/-- A directory listing in `os.ReadDir` order. -/
abbrev Dir := List DirEntry

/-- The storage root; `none` models a missing directory. -/
abbrev FS := Option Dir

/-- Typed resolver errors `ErrNotFound` / `ErrAmbiguous` with their
payload fields. -/
inductive ResolveErr where
  | notFound (id : String)
  | ambiguous (id : String) (ms : List String)
deriving DecidableEq

deriving instance DecidableEq for Except

/-- Model of `os.Stat(filepath.Join(dir, n))` succeeding: some entry of
the directory bears the name `n`. -/
def statName (d : Dir) (n : String) : Bool :=
  d.any (fun e => e.name == n)

/-- The candidate loop of `ResolveID`: skip directories and files without
the `.md` extension, trim the extension, keep IDs containing the partial
as a contiguous substring. -/
def matchingIDs (d : Dir) (pid : String) : List String :=
  (d.filter (fun e => !e.isDir && endsWithL e.name.data ".md".data
      && strContains (trimSuffixL e.name.data ".md".data) pid.data)).map
    (fun e => ⟨trimSuffixL e.name.data ".md".data⟩)

/-- Model of `ticket.ResolveID(ticketsDir, partial)`. -/
def resolveID (fs : FS) (pid : String) : Except ResolveErr String :=
  match fs with
  | none => .error (.notFound pid)
  | some d =>
    if statName d (pid ++ ".md") then .ok pid
    else
      match matchingIDs d pid with
      | [] => .error (.notFound pid)
      | [m] => .ok m
      | m :: m' :: ms => .error (.ambiguous pid (m :: m' :: ms))

/-- All record IDs a directory stores: regular files with the `.md`
extension, names trimmed of the extension. -/
def storedIDs (d : Dir) : List String :=
  (d.filter (fun e => !e.isDir && endsWithL e.name.data ".md".data)).map
    (fun e => ⟨trimSuffixL e.name.data ".md".data⟩)

theorem matchingIDs_eq_filter_storedIDs (d : Dir) (pid : String) :
    matchingIDs d pid
      = (storedIDs d).filter (fun i => strContains i.data pid.data) := by
  unfold matchingIDs storedIDs
  rw [List.filter_map, List.filter_filter]
  congr 1
  apply List.filter_congr
  intro e _
  simp only [Function.comp, data_mk]
  cases e.isDir <;> cases hb : endsWithL e.name.data ".md".data <;>
    cases hc : strContains (trimSuffixL e.name.data ".md".data) pid.data <;>
      simp [hb, hc]

/-- C2: when a stored record file's ID equals the input exactly,
`ResolveID` returns that ID, regardless of any other stored IDs that
contain the input as a substring. -/
theorem resolveID_exact_match (d : Dir) (pid : String)
    (h : ∃ e ∈ d, e.name = pid ++ ".md" ∧ e.isDir = false) :
    resolveID (some d) pid = .ok pid := by
  obtain ⟨e, hmem, hname, _⟩ := h
  have hstat : statName d (pid ++ ".md") = true := by
    unfold statName
    rw [List.any_eq_true]
    exact ⟨e, hmem, by rw [hname]; exact beq_self_eq_true _⟩
  simp only [resolveID]
  rw [if_pos hstat]

/-- C2 witness: `mtk-5c46` resolves to itself although `mtk-5c4` and
`mtk-5c461` also contain it as a substring. -/
theorem resolveID_exact_match_witness :
    resolveID (some [⟨"mtk-5c4.md", false, ""⟩, ⟨"mtk-5c46.md", false, ""⟩,
        ⟨"mtk-5c461.md", false, ""⟩]) "mtk-5c46" = .ok "mtk-5c46" :=
  resolveID_exact_match _ "mtk-5c46"
    ⟨⟨"mtk-5c46.md", false, ""⟩, by decide, by decide, rfl⟩

/-- C3: with no exactly-named entry present, `ResolveID` fails NotFound
iff zero stored IDs contain the partial, fails Ambiguous listing exactly
the matching IDs iff at least two do, returns the unique match otherwise;
a missing storage root is NotFound.  Only `.md` regular files count as
stored IDs (built into `storedIDs`). -/
theorem resolveID_partial_cases (d : Dir) (pid : String)
    (hno : statName d (pid ++ ".md") = false) :
    (resolveID (some d) pid = .error (.notFound pid)
        ↔ (storedIDs d).filter (fun i => strContains i.data pid.data) = [])
    ∧ (∀ ms, resolveID (some d) pid = .error (.ambiguous pid ms)
        ↔ ((storedIDs d).filter (fun i => strContains i.data pid.data) = ms
            ∧ 2 ≤ ms.length))
    ∧ (∀ m, resolveID (some d) pid = .ok m
        ↔ (storedIDs d).filter (fun i => strContains i.data pid.data) = [m])
    ∧ resolveID none pid = .error (.notFound pid) := by
  rw [← matchingIDs_eq_filter_storedIDs]
  have hres : resolveID (some d) pid
      = (match matchingIDs d pid with
        | [] => .error (.notFound pid)
        | [m] => .ok m
        | m :: m' :: ms => .error (.ambiguous pid (m :: m' :: ms))) := by
    simp [resolveID, hno]
  rw [hres]
  refine ⟨?_, ?_, ?_, rfl⟩ <;>
    rcases h : matchingIDs d pid with _ | ⟨m, _ | ⟨m', rest⟩⟩
  · simp
  · simp
  · simp
  · intro ms
    constructor
    · intro hc; exact absurd hc (by simp)
    · rintro ⟨rfl, hlen⟩; simp at hlen
  · intro ms
    constructor
    · intro hc; exact absurd hc (by simp)
    · rintro ⟨rfl, hlen⟩; simp at hlen
  · intro ms
    constructor
    · intro hc
      have h2 : m :: m' :: rest = ms := by simpa using hc
      refine ⟨h2, ?_⟩
      rw [← h2]
      simp only [List.length_cons]
      omega
    · rintro ⟨rfl, _⟩; rfl
  · intro mm
    simp
  · intro mm
    constructor
    · intro hc
      have hmm : m = mm := by simpa using hc
      rw [hmm]
    · intro hc
      have hmm : m = mm := by simpa using hc
      rw [hmm]
  · intro mm
    constructor
    · intro hc; exact absurd hc (by simp)
    · intro hc; exact absurd hc (by simp)

/-- C3 witness: two stored IDs contain `5c`, so resolution is ambiguous
and lists both. -/
theorem resolveID_partial_cases_witness :
    resolveID (some [⟨"mtk-5c46.md", false, ""⟩, ⟨"mtk-5c47.md", false, ""⟩])
        "5c" = .error (.ambiguous "5c" ["mtk-5c46", "mtk-5c47"]) :=
  ((resolveID_partial_cases
      [⟨"mtk-5c46.md", false, ""⟩, ⟨"mtk-5c47.md", false, ""⟩] "5c"
      (by decide)).2.1 ["mtk-5c46", "mtk-5c47"]).mpr (by decide)

/-! ### Enumeration order of ambiguous matches (C9) -/

theorem leadsWith_eq_isPrefixOf (s p : List Char) :
    leadsWith s p = p.isPrefixOf s := by
  induction p generalizing s with
  | nil => cases s <;> rfl
  | cons a ps ih =>
    cases s with
    | nil => rfl
    | cons b ss => simp [leadsWith, List.isPrefixOf, ih]

theorem leadsWith_iff (s p : List Char) : leadsWith s p = true ↔ p <+: s := by
  rw [leadsWith_eq_isPrefixOf, List.isPrefixOf_iff_prefix]

theorem endsWithL_iff (s suf : List Char) :
    endsWithL s suf = true ↔ suf <:+ s := by
  unfold endsWithL
  rw [leadsWith_iff, List.reverse_prefix]

theorem trimSuffixL_append (s suf : List Char) (h : endsWithL s suf = true) :
    trimSuffixL s suf ++ suf = s := by
  obtain ⟨t, ht⟩ := (endsWithL_iff s suf).mp h
  unfold trimSuffixL
  rw [if_pos h, ← ht]
  have hlen : (t ++ suf).length - suf.length = t.length := by
    simp [List.length_append]
  rw [hlen, List.take_left]

/-- C9, counterexample: a directory in ascending filename order
(`ab-c.md` before `ab.md`, since `-` sorts before `.`) yields an
ambiguous match list that is *not* in ascending lexicographic order of
the IDs: `ab-c` is listed before `ab`. -/
theorem resolveID_matches_not_id_sorted :
    List.Pairwise (fun a b => lexLe a.name.data b.name.data = true)
      [DirEntry.mk "ab-c.md" false "", DirEntry.mk "ab.md" false ""]
    ∧ resolveID (some [DirEntry.mk "ab-c.md" false "",
        DirEntry.mk "ab.md" false ""]) "b"
      = .error (.ambiguous "b" ["ab-c", "ab"])
    ∧ lexLe "ab-c".data "ab".data = false := by
  refine ⟨?_, by decide, by decide⟩
  decide

/-- C9 (amended): when the directory entries are in ascending filename
order (as `os.ReadDir` guarantees), the `Matches` payload of an
`Ambiguous` failure is in the same order — ascending lexicographic order
of the *filenames* `id + ".md"` — which coincides with ascending ID order
only when no ID character sorts before `.`. -/
theorem resolveID_ambiguous_matches_sorted (d : Dir) (pid : String)
    (ms : List String)
    (hsorted : List.Pairwise (fun a b => lexLe a.name.data b.name.data = true) d)
    (hres : resolveID (some d) pid = .error (.ambiguous pid ms)) :
    List.Pairwise
      (fun a b => lexLe (a.data ++ ".md".data) (b.data ++ ".md".data) = true)
      ms := by
  have hms : matchingIDs d pid = ms := by
    by_cases hstat : statName d (pid ++ ".md") = true
    · simp only [resolveID, if_pos hstat] at hres
      cases hres
    · simp only [resolveID, if_neg hstat] at hres
      rcases hsplit : matchingIDs d pid with _ | ⟨m, _ | ⟨m', rest⟩⟩ <;>
        rw [hsplit] at hres <;> simp_all
  rw [← hms]
  unfold matchingIDs
  rw [List.pairwise_map]
  refine (List.Pairwise.filter _ hsorted).imp_of_mem ?_
  intro a b ha hb hab
  have hA := (List.mem_filter.mp ha).2
  have hB := (List.mem_filter.mp hb).2
  have hendA : endsWithL a.name.data ".md".data = true := by
    simp only [Bool.and_eq_true] at hA
    exact hA.1.2
  have hendB : endsWithL b.name.data ".md".data = true := by
    simp only [Bool.and_eq_true] at hB
    exact hB.1.2
  rw [data_mk, data_mk, trimSuffixL_append _ _ hendA,
    trimSuffixL_append _ _ hendB]
  exact hab

/-- C9 witness: on the counterexample directory the amended ordering
holds: `ab-c.md` sorts before `ab.md`. -/
theorem resolveID_ambiguous_matches_sorted_witness :
    List.Pairwise
      (fun a b => lexLe (a.data ++ ".md".data) (b.data ++ ".md".data) = true)
      ["ab-c", "ab"] :=
  resolveID_ambiguous_matches_sorted
    [DirEntry.mk "ab-c.md" false "", DirEntry.mk "ab.md" false ""] "b"
    ["ab-c", "ab"] (by decide) (by decide)

/-! ## Ticket record, `Format` and `Parse` (src/internal/ticket/parser.go)

`time.Time` values are modelled as broken-down UTC civil time at second
precision (`DateTime`), which is exactly the precision `Format` writes
(`Created.UTC().Format(time.RFC3339)`) and `Parse` reads back.  `Status`
and `Type` are string types in Go with no enforced membership, so they are
plain strings here. -/

structure DateTime where
  year : Nat
  month : Nat
  day : Nat
  hour : Nat
  minute : Nat
  second : Nat
deriving DecidableEq

/-- Go's `time.Time{}` zero value: January 1, year 1, 00:00:00 UTC. -/
def zeroTime : DateTime := ⟨1, 1, 1, 0, 0, 0⟩

structure Ticket where
  id : String
  status : String
  deps : List String
  links : List String
  created : DateTime
  type : String
  priority : Int
  assignee : String
  externalRef : String
  parent : String
  title : String
  body : String
deriving DecidableEq

/-- The character for a decimal digit. -/
def digitChar (n : Nat) : Char := Char.ofNat (48 + n)

/-- Numeric value of a digit character. -/
def dval (c : Char) : Nat := c.toNat - 48

/-- Two-digit zero-padded decimal field, as Go's time formatting emits for
month, day, hour, minute and second. -/
def pad2 (n : Nat) : List Char := [digitChar (n / 10 % 10), digitChar (n % 10)]

/-- Four-digit zero-padded year (Go pads the year of `time.RFC3339` to four
digits for years 0–9999, the only range considered well formed here). -/
def pad4 (n : Nat) : List Char :=
  [digitChar (n / 1000 % 10), digitChar (n / 100 % 10),
   digitChar (n / 10 % 10), digitChar (n % 10)]

/-- `Created.UTC().Format(time.RFC3339)` on a whole-second UTC time:
`YYYY-MM-DDThh:mm:ssZ`. -/
def formatRFC3339 (dt : DateTime) : List Char :=
  pad4 dt.year ++ '-' :: pad2 dt.month ++ '-' :: pad2 dt.day
    ++ 'T' :: pad2 dt.hour ++ ':' :: pad2 dt.minute ++ ':' :: pad2 dt.second
    ++ ['Z']

/-- Decimal digits of a natural number, standard `%d` rendering. -/
def decNat (n : Nat) : List Char :=
  if _h : n < 10 then [digitChar n]
  else decNat (n / 10) ++ [digitChar (n % 10)]
decreasing_by exact Nat.div_lt_self (by omega) (by norm_num)

/-- Go `fmt.Sprintf("%d", i)` for an `int`. -/
def decInt (i : Int) : List Char :=
  if i < 0 then '-' :: decNat (-i).toNat else decNat i.toNat

/-- Model of `strings.Join(arr, ", ")`. -/
def joinCS : List (List Char) → List Char
  | [] => []
  | [x] => x
  | x :: xs => x ++ ',' :: ' ' :: joinCS xs

/-- Model of `formatArray`: `[]` when empty, otherwise the elements joined
by `", "` inside brackets. -/
def formatArray (arr : List String) : List Char :=
  if arr = [] then "[]".data
  else '[' :: joinCS (arr.map String.data) ++ [']']

/-- Model of `ticket.Format`: frontmatter fields in fixed order between
`---` delimiters, optional fields only when non-empty, then the `# title`
heading, then (when non-empty) a blank line and the body, newline
terminated. -/
def formatTicket (t : Ticket) : List Char :=
  "---\n".data
  ++ "id: ".data ++ t.id.data ++ ['\n']
  ++ "status: ".data ++ t.status.data ++ ['\n']
  ++ "deps: ".data ++ formatArray t.deps ++ ['\n']
  ++ "links: ".data ++ formatArray t.links ++ ['\n']
  ++ "created: ".data ++ formatRFC3339 t.created ++ ['\n']
  ++ "type: ".data ++ t.type.data ++ ['\n']
  ++ "priority: ".data ++ decInt t.priority ++ ['\n']
  ++ (if t.assignee ≠ "" then "assignee: ".data ++ t.assignee.data ++ ['\n'] else [])
  ++ (if t.externalRef ≠ "" then
        "external-ref: ".data ++ t.externalRef.data ++ ['\n'] else [])
  ++ (if t.parent ≠ "" then "parent: ".data ++ t.parent.data ++ ['\n'] else [])
  ++ "---\n".data
  ++ "# ".data ++ t.title.data ++ ['\n']
  ++ (if t.body ≠ "" then
        '\n' :: t.body.data
          ++ (if endsWithL t.body.data ['\n'] then [] else ['\n'])
      else [])

def formatGo (t : Ticket) : String := ⟨formatTicket t⟩

/-! ### `Parse` -/

/-- `bufio.ScanLines` drops one trailing carriage return from each line. -/
def dropCR (l : List Char) : List Char :=
  if endsWithL l ['\r'] then l.dropLast else l

/-- Lines as `bufio.Scanner` with `ScanLines` yields them: split at every
newline, no final empty token when the input ends in a newline. -/
def scanLines (s : List Char) : List (List Char) :=
  let ps := splitNL s
  (if ps.getLast? = some [] then ps.dropLast else ps).map dropCR

/-- State of `Parse`'s line loop. -/
structure ScanState where
  found : Bool
  inFM : Bool
  fmDone : Bool
  fmLines : List (List Char)
  bodyLines : List (List Char)

/-- One iteration of `Parse`'s loop: the first `---` opens the
frontmatter, the next closes it; in between lines collect as frontmatter,
afterwards as body; lines before the first delimiter are dropped. -/
def scanStep (st : ScanState) (line : List Char) : ScanState :=
  if line = "---".data ∧ st.found = false then
    { st with found := true, inFM := true }
  else if line = "---".data ∧ st.inFM = true then
    { st with inFM := false, fmDone := true }
  else if st.inFM = true then { st with fmLines := st.fmLines ++ [line] }
  else if st.fmDone = true then { st with bodyLines := st.bodyLines ++ [line] }
  else st

/-- The frontmatter and body lines `Parse` collects. -/
def scanTicket (s : List Char) : List (List Char) × List (List Char) :=
  let st := (scanLines s).foldl scanStep ⟨false, false, false, [], []⟩
  (st.fmLines, st.bodyLines)

/-- The fields `yaml.Unmarshal` fills; `deps`/`links` distinguish an absent
array (`none`, Go `nil`) from a present empty one. -/
structure Frontmatter where
  id : String := ""
  status : String := ""
  deps : Option (List String) := none
  links : Option (List String) := none
  created : String := ""
  type : String := ""
  priority : Int := 0
  assignee : String := ""
  externalRef : String := ""
  parent : String := ""

/-- Split at every `", "` separator, the shape `strings.Split(s, ", ")`
produces; used for flow-style arrays. -/
def splitCS : List Char → List (List Char)
  | [] => [[]]
  | ',' :: ' ' :: rest => [] :: splitCS rest
  | c :: rest =>
    match splitCS rest with
    | [] => [[c]]
    | h :: t => (c :: h) :: t

/-- Modelled from the spec: the YAML library's reading of an inline
bracketed flow sequence (`deps: [dep-1, dep-2]`, `[]` when empty — §6 of
the spec), on the exact shape `formatArray` emits: brackets around
`", "`-separated plain scalars.  Other YAML spellings are out of the
model and return `none` (an unmarshal error). -/
def parseFlow (l : List Char) : Option (List String) :=
  match l with
  | '[' :: rest =>
    if endsWithL rest [']'] then
      let inner := rest.dropLast
      if inner = [] then some []
      else some ((splitCS inner).map (fun p => ⟨p⟩))
    else none
  | _ => none

/-- Digits-only decimal reading. -/
def parseDigits (l : List Char) : Option Nat :=
  if l = [] then none
  else if l.all (·.isDigit) then
    some (l.foldl (fun a c => a * 10 + dval c) 0)
  else none

/-- Modelled from the spec: the YAML library's reading of a plain integer
scalar (the `priority` line, "plain integer" — §6 of the spec): an
optional minus sign and decimal digits. -/
def parseIntL (l : List Char) : Option Int :=
  match l with
  | '-' :: rest =>
    match parseDigits rest with
    | some n => some (-(n : Int))
    | none => none
  | _ =>
    match parseDigits l with
    | some n => some ((n : Int))
    | none => none

/-- Modelled from the spec: `yaml.Unmarshal` of one `key: value` line into
the frontmatter struct (§6 of the spec fixes the keys and their forms).
Plain scalar values are taken verbatim after the `"key: "` lead — faithful
for the ID-like scalar values the format emits; unknown lines are ignored
as the library does without strict mode. -/
def parseFMLine (fm : Frontmatter) (line : List Char) : Option Frontmatter :=
  if leadsWith line "id: ".data then some { fm with id := ⟨line.drop 4⟩ }
  else if leadsWith line "status: ".data then
    some { fm with status := ⟨line.drop 8⟩ }
  else if leadsWith line "deps: ".data then
    (parseFlow (line.drop 6)).map (fun v => { fm with deps := some v })
  else if leadsWith line "links: ".data then
    (parseFlow (line.drop 7)).map (fun v => { fm with links := some v })
  else if leadsWith line "created: ".data then
    some { fm with created := ⟨line.drop 9⟩ }
  else if leadsWith line "type: ".data then
    some { fm with type := ⟨line.drop 6⟩ }
  else if leadsWith line "priority: ".data then
    (parseIntL (line.drop 10)).map (fun v => { fm with priority := v })
  else if leadsWith line "assignee: ".data then
    some { fm with assignee := ⟨line.drop 10⟩ }
  else if leadsWith line "external-ref: ".data then
    some { fm with externalRef := ⟨line.drop 14⟩ }
  else if leadsWith line "parent: ".data then
    some { fm with parent := ⟨line.drop 8⟩ }
  else some fm

def isLeap (y : Nat) : Bool := y % 4 = 0 && (y % 100 ≠ 0 || y % 400 = 0)

def daysInMonth (y m : Nat) : Nat :=
  if m = 2 then (if isLeap y then 29 else 28)
  else if m = 4 ∨ m = 6 ∨ m = 9 ∨ m = 11 then 30
  else 31

/-- `time.Parse(time.RFC3339, s)` restricted to the `Z`-suffixed
whole-second form `Format` emits (offsets and fractional seconds are out
of the model): fixed-position digits and separators, calendar-checked. -/
def parseRFC3339 (s : List Char) : Option DateTime :=
  match s with
  | [y1, y2, y3, y4, sep1, m1, m2, sep2, d1, d2, sepT,
     h1, h2, sep3, n1, n2, sep4, s1, s2, z] =>
    if sep1 = '-' ∧ sep2 = '-' ∧ sepT = 'T' ∧ sep3 = ':' ∧ sep4 = ':' ∧ z = 'Z'
        ∧ [y1, y2, y3, y4, m1, m2, d1, d2, h1, h2, n1, n2, s1, s2].all
            (·.isDigit) then
      let yr := dval y1 * 1000 + dval y2 * 100 + dval y3 * 10 + dval y4
      let mo := dval m1 * 10 + dval m2
      let dy := dval d1 * 10 + dval d2
      let hh := dval h1 * 10 + dval h2
      let mi := dval n1 * 10 + dval n2
      let ss := dval s1 * 10 + dval s2
      if 1 ≤ mo ∧ mo ≤ 12 ∧ 1 ≤ dy ∧ dy ≤ daysInMonth yr mo
          ∧ hh ≤ 23 ∧ mi ≤ 59 ∧ ss ≤ 59 then
        some ⟨yr, mo, dy, hh, mi, ss⟩
      else none
    else none
  | _ => none

/-- `strings.TrimSpace`, left side. -/
def trimLeftWS : List Char → List Char
  | [] => []
  | c :: rest => if c.isWhitespace then trimLeftWS rest else c :: rest

def trimRightWS (l : List Char) : List Char := (trimLeftWS l.reverse).reverse

/-- Model of `strings.TrimSpace`. -/
def trimWS (l : List Char) : List Char := trimLeftWS (trimRightWS l)

/-- The title loop of `Parse`: the first line whose trimmed form starts
with `# ` gives the title and the body starts after it; a non-empty,
non-heading line stops the search with no title. -/
def findTitle : List (List Char) → Nat → List Char × Nat
  | [], _ => ([], 0)
  | line :: rest, i =>
    let tr := trimWS line
    if leadsWith tr "# ".data then (tr.drop 2, i + 1)
    else if tr ≠ [] then ([], 0)
    else findTitle rest (i + 1)

/-- Model of `ticket.Parse`. -/
def parseTicket (s : List Char) : Option Ticket :=
  let scanned := scanTicket s
  match scanned.1.foldlM parseFMLine {} with
  | none => none
  | some fm =>
    let created :=
      match parseRFC3339 fm.created.data with
      | some dt => dt
      | none => zeroTime
    let tb := findTitle scanned.2 0
    let body :=
      if tb.2 < scanned.2.length then trimWS (joinNL (scanned.2.drop tb.2))
      else []
    some { id := fm.id, status := fm.status, deps := fm.deps.getD [],
           links := fm.links.getD [], created := created, type := fm.type,
           priority := fm.priority, assignee := fm.assignee,
           externalRef := fm.externalRef, parent := fm.parent,
           title := ⟨tb.1⟩, body := ⟨body⟩ }

def parseGo (s : String) : Option Ticket := parseTicket s.data

/-! ## File operations and the `FileStore` (src store file)

`setFile` models `os.Create`/`os.WriteFile` (truncate-or-create),
`removeFile` models `os.Remove`, `renameFile` models the atomic
`os.Rename`: in one step the destination entry holds the source's whole
content and the source entry is gone. -/

def findEntry (d : Dir) (n : String) : Option DirEntry :=
  d.find? (fun e => e.name == n)

/-- Model of reading a file's content (`os.ReadFile` / `os.Open`+read):
`none` is an error (absent entry or a directory). -/
def readFileF (d : Dir) (n : String) : Option String :=
  match findEntry d n with
  | some e => if e.isDir then none else some e.content
  | none => none

/-- Model of `os.Create`/`os.WriteFile`: truncate an existing entry of
that name or append a fresh regular file. -/
def setFile (d : Dir) (n : String) (c : String) : Dir :=
  if d.any (fun e => e.name == n) then
    d.map (fun e => if e.name = n then ⟨n, false, c⟩ else e)
  else d ++ [⟨n, false, c⟩]

/-- Model of `os.Remove`. -/
def removeFile (d : Dir) (n : String) : Dir :=
  d.filter (fun e => e.name ≠ n)

/-- Model of the atomic `os.Rename(src, dst)`. -/
def renameFile (d : Dir) (src dst : String) : Dir :=
  match findEntry d src with
  | none => d
  | some e => setFile (removeFile d src) dst e.content

/-- Errors a store operation surfaces: a resolver condition passed through
unchanged, or an opaque persistence/parse failure. -/
inductive StoreErr where
  | resolver (e : ResolveErr)
  | io
deriving DecidableEq

/-- `FileStore.Create`: ensure the root exists, then write the serialized
record at `ID + ".md"`, overwriting anything there. -/
def storeCreate (fs : FS) (t : Ticket) : FS :=
  some (setFile (fs.getD []) (t.id ++ ".md") (formatGo t))

/-- `FileStore.Get`: resolve, then read and parse. -/
def storeGet (fs : FS) (pid : String) : Except StoreErr Ticket × FS :=
  match resolveID fs pid with
  | .error e => (.error (.resolver e), fs)
  | .ok id =>
    match fs.bind (readFileF · (id ++ ".md")) with
    | none => (.error .io, fs)
    | some content =>
      match parseGo content with
      | none => (.error .io, fs)
      | some t => (.ok t, fs)

/-- `FileStore.Path`: resolve, then return the derived path. -/
def storePath (fs : FS) (pid : String) : Except StoreErr String × FS :=
  match resolveID fs pid with
  | .error e => (.error (.resolver e), fs)
  | .ok id => (.ok (id ++ ".md"), fs)

/-- `FileStore.UpdateField`: resolve, read raw, patch the field, write a
temp file and rename it over the record. -/
def storeUpdateField (fs : FS) (pid field value : String) :
    Except StoreErr String × FS :=
  match resolveID fs pid with
  | .error e => (.error (.resolver e), fs)
  | .ok id =>
    match fs with
    | none => (.error .io, fs)
    | some d =>
      match readFileF d (id ++ ".md") with
      | none => (.error .io, fs)
      | some content =>
        let newContent := updateFieldGo content field value
        let d1 := setFile d (id ++ ".md" ++ ".tmp") newContent
        (.ok id, some (renameFile d1 (id ++ ".md" ++ ".tmp") (id ++ ".md")))

/-- `FileStore.Delete`: resolve, then remove the file. -/
def storeDelete (fs : FS) (pid : String) : Except StoreErr Unit × FS :=
  match resolveID fs pid with
  | .error e => (.error (.resolver e), fs)
  | .ok id =>
    match fs with
    | none => (.error .io, fs)
    | some d =>
      if d.any (fun e => e.name == id ++ ".md") then
        (.ok (), some (removeFile d (id ++ ".md")))
      else (.error .io, fs)

/-- `FileStore.ReadRaw`: resolve, then read the raw content. -/
def storeReadRaw (fs : FS) (pid : String) :
    Except StoreErr (String × String) × FS :=
  match resolveID fs pid with
  | .error e => (.error (.resolver e), fs)
  | .ok id =>
    match fs.bind (readFileF · (id ++ ".md")) with
    | none => (.error .io, fs)
    | some content => (.ok (id, content), fs)

/-- `FileStore.AppendToFile`: resolve, open `O_APPEND` (an error when the
file is absent) and append. -/
def storeAppendToFile (fs : FS) (pid content : String) :
    Except StoreErr String × FS :=
  match resolveID fs pid with
  | .error e => (.error (.resolver e), fs)
  | .ok id =>
    match fs with
    | none => (.error .io, fs)
    | some d =>
      match readFileF d (id ++ ".md") with
      | none => (.error .io, fs)
      | some old => (.ok id, some (setFile d (id ++ ".md") (old ++ content)))

/-- `FileStore.Update`'s happy path: write the whole serialized record to
`path + ".tmp"`, then atomically rename it over `path`. -/
def storeUpdate (d : Dir) (t : Ticket) : Dir :=
  let path := t.id ++ ".md"
  let d1 := setFile d (path ++ ".tmp") (formatGo t)
  renameFile d1 (path ++ ".tmp") path

/-- Every filesystem state `FileStore.Update` can leave behind, at every
failure point: before anything is written; after `os.Create` truncates the
temp file; after any partial write of the serialized record into the temp
file (every proper or full prper — each element of `inits`); after the
close with the full content in the temp file; after a failed rename's
cleanup removed the temp file; and after the successful atomic rename. -/
def updateStates (d : Dir) (t : Ticket) : List Dir :=
  let path := t.id ++ ".md"
  let tmp := path ++ ".tmp"
  let content := formatGo t
  [d]
  ++ ((formatTicket t).inits.map fun p => setFile d tmp ⟨p⟩)
  ++ [removeFile (setFile d tmp content) tmp,
      renameFile (setFile d tmp content) tmp path]

/-! ### File-operation lemmas -/

theorem find?_map_overwrite_ne (d : Dir) (n m : String) (c : String)
    (hm : m ≠ n) :
    (d.map (fun e => if e.name = n then DirEntry.mk n false c else e)).find?
        (fun e => e.name == m)
      = d.find? (fun e => e.name == m) := by
  induction d with
  | nil => rfl
  | cons e es ih =>
    by_cases he : e.name = n
    · simp only [List.map_cons, if_pos he, List.find?]
      rw [show ((DirEntry.mk n false c).name == m) = false by
        rw [beq_eq_false_iff_ne]; exact Ne.symm hm]
      rw [show (e.name == m) = false by
        rw [he, beq_eq_false_iff_ne]; exact Ne.symm hm]
      exact ih
    · simp only [List.map_cons, if_neg he, List.find?]
      cases hem : (e.name == m) with
      | true => rfl
      | false => exact ih

theorem find?_append_one_ne (d : Dir) (x : DirEntry) (m : String)
    (hx : x.name ≠ m) :
    (d ++ [x]).find? (fun e => e.name == m) = d.find? (fun e => e.name == m) := by
  induction d with
  | nil =>
    simp only [List.nil_append, List.find?]
    rw [show (x.name == m) = false from by rw [beq_eq_false_iff_ne]; exact hx]
  | cons e es ih =>
    simp only [List.cons_append, List.find?]
    cases hem : (e.name == m) with
    | true => rfl
    | false => exact ih

theorem findEntry_setFile_ne (d : Dir) (n m : String) (c : String)
    (hm : m ≠ n) : findEntry (setFile d n c) m = findEntry d m := by
  unfold setFile findEntry
  split
  · exact find?_map_overwrite_ne d n m c hm
  · exact find?_append_one_ne d _ m (Ne.symm hm)

theorem readFileF_setFile_ne (d : Dir) (n m : String) (c : String)
    (hm : m ≠ n) : readFileF (setFile d n c) m = readFileF d m := by
  unfold readFileF
  rw [findEntry_setFile_ne d n m c hm]

theorem find?_map_overwrite_same (d : Dir) (n : String) (c : String)
    (h : d.any (fun e => e.name == n) = true) :
    (d.map (fun e => if e.name = n then DirEntry.mk n false c else e)).find?
        (fun e => e.name == n)
      = some (DirEntry.mk n false c) := by
  induction d with
  | nil => cases h
  | cons e es ih =>
    by_cases he : e.name = n
    · simp [List.find?, if_pos he]
    · simp only [List.map_cons, if_neg he, List.find?]
      rw [show (e.name == n) = false by simp [he]]
      apply ih
      simp only [List.any_cons, Bool.or_eq_true] at h
      rcases h with h' | h'
      · exact absurd (by simpa using h') he
      · exact h'

theorem findEntry_setFile_same (d : Dir) (n : String) (c : String) :
    findEntry (setFile d n c) n = some (DirEntry.mk n false c) := by
  unfold setFile findEntry
  split
  · rename_i h
    exact find?_map_overwrite_same d n c h
  · rename_i h
    induction d with
    | nil => simp [List.find?]
    | cons e es ih =>
      simp only [List.any_cons, Bool.or_eq_true, not_or] at h
      simp only [List.cons_append, List.find?]
      rw [show (e.name == n) = false by
        cases hx : (e.name == n) with
        | true => exact absurd hx h.1
        | false => rfl]
      exact ih h.2

theorem readFileF_setFile_same (d : Dir) (n : String) (c : String) :
    readFileF (setFile d n c) n = some c := by
  unfold readFileF
  rw [findEntry_setFile_same]
  rfl

theorem findEntry_removeFile_ne (d : Dir) (n m : String) (hm : m ≠ n) :
    findEntry (removeFile d n) m = findEntry d m := by
  unfold removeFile findEntry
  induction d with
  | nil => rfl
  | cons e es ih =>
    by_cases he : e.name = n
    · rw [show List.filter (fun e => decide (e.name ≠ n)) (e :: es)
          = List.filter (fun e => decide (e.name ≠ n)) es by
        simp [List.filter, he]]
      rw [ih]
      simp only [List.find?]
      rw [show (e.name == m) = false by
        rw [he, beq_eq_false_iff_ne]; exact Ne.symm hm]
    · rw [show List.filter (fun e => decide (e.name ≠ n)) (e :: es)
          = e :: List.filter (fun e => decide (e.name ≠ n)) es by
        simp [List.filter, he]]
      simp only [List.find?]
      cases hem : (e.name == m) with
      | true => rfl
      | false => exact ih

theorem readFileF_removeFile_ne (d : Dir) (n m : String) (hm : m ≠ n) :
    readFileF (removeFile d n) m = readFileF d m := by
  unfold readFileF
  rw [findEntry_removeFile_ne d n m hm]

theorem append_tmp_ne (s : String) : s ≠ s ++ ".tmp" := by
  intro h
  have hlen := congrArg String.length h
  rw [String.length_append] at hlen
  have h4 : (".tmp" : String).length = 4 := rfl
  omega

/-- C4: at every failure point of `FileStore.Update` — before the temp
file exists, after any partial write into it, after a failed rename's
cleanup, and after the atomic rename itself — the canonical record path
holds either exactly its original content or exactly the full new
serialized record, never anything in between. -/
theorem storeUpdate_atomic (d : Dir) (t : Ticket) :
    ∀ s ∈ updateStates d t,
      readFileF s (t.id ++ ".md") = readFileF d (t.id ++ ".md")
      ∨ readFileF s (t.id ++ ".md") = some (formatGo t) := by
  intro s hs
  unfold updateStates at hs
  rcases List.mem_cons.mp hs with h | h
  · left; rw [h]
  rcases List.mem_append.mp h with h | h
  · left
    rcases List.mem_map.mp h with ⟨p, _, hp⟩
    rw [← hp]
    exact readFileF_setFile_ne d _ _ _ (append_tmp_ne _)
  rcases List.mem_cons.mp h with h | h
  · left
    rw [h, readFileF_removeFile_ne _ _ _ (append_tmp_ne _),
      readFileF_setFile_ne _ _ _ _ (append_tmp_ne _)]
  rcases List.mem_cons.mp h with h | h
  · right
    rw [h]
    unfold renameFile
    rw [findEntry_setFile_same]
    exact readFileF_setFile_same _ _ _
  · cases h

/-- Concrete inputs for the C4 witness. -/
def updWitnessTicket : Ticket :=
  ⟨"a", "open", [], [], ⟨2025, 1, 1, 0, 0, 0⟩, "task", 1, "", "", "", "T", ""⟩

def updWitnessDir : Dir := [DirEntry.mk "a.md" false "old"]

/-- The state after the successful atomic rename of a concrete update. -/
def updWitnessState : Dir :=
  renameFile
    (setFile updWitnessDir (updWitnessTicket.id ++ ".md" ++ ".tmp")
      (formatGo updWitnessTicket))
    (updWitnessTicket.id ++ ".md" ++ ".tmp") (updWitnessTicket.id ++ ".md")

/-- C4 witness: the post-rename state of a concrete update holds either
the old or the (full) new record at the canonical path. -/
theorem storeUpdate_atomic_witness :
    readFileF updWitnessState (updWitnessTicket.id ++ ".md")
      = readFileF updWitnessDir (updWitnessTicket.id ++ ".md")
    ∨ readFileF updWitnessState (updWitnessTicket.id ++ ".md")
      = some (formatGo updWitnessTicket) :=
  storeUpdate_atomic updWitnessDir updWitnessTicket updWitnessState
    (by
      unfold updateStates updWitnessState
      exact List.mem_append_right _
        (List.mem_cons_of_mem _ (List.mem_cons_self _ _)))

/-- C10: every identifier-taking store operation that hits a resolver
failure returns that `ErrNotFound`/`ErrAmbiguous` unchanged and leaves the
filesystem exactly as it was. -/
theorem store_ops_resolver_error_frame (fs : FS) (pid : String)
    (e : ResolveErr) (h : resolveID fs pid = .error e)
    (field value content : String) :
    storeGet fs pid = (.error (.resolver e), fs)
    ∧ storePath fs pid = (.error (.resolver e), fs)
    ∧ storeUpdateField fs pid field value = (.error (.resolver e), fs)
    ∧ storeDelete fs pid = (.error (.resolver e), fs)
    ∧ storeReadRaw fs pid = (.error (.resolver e), fs)
    ∧ storeAppendToFile fs pid content = (.error (.resolver e), fs) :=
  ⟨by unfold storeGet; rw [h], by unfold storePath; rw [h],
   by unfold storeUpdateField; rw [h], by unfold storeDelete; rw [h],
   by unfold storeReadRaw; rw [h], by unfold storeAppendToFile; rw [h]⟩

/-- C10 witness: an ambiguous partial leaves a two-record store untouched
across all six operations. -/
theorem store_ops_resolver_error_frame_witness :
    storeGet (some [DirEntry.mk "ab.md" false "x", DirEntry.mk "ac.md" false "y"]) "a"
      = (.error (.resolver (.ambiguous "a" ["ab", "ac"])),
         some [DirEntry.mk "ab.md" false "x", DirEntry.mk "ac.md" false "y"])
    ∧ storePath (some [DirEntry.mk "ab.md" false "x", DirEntry.mk "ac.md" false "y"]) "a"
      = (.error (.resolver (.ambiguous "a" ["ab", "ac"])),
         some [DirEntry.mk "ab.md" false "x", DirEntry.mk "ac.md" false "y"])
    ∧ storeUpdateField (some [DirEntry.mk "ab.md" false "x", DirEntry.mk "ac.md" false "y"]) "a" "status" "closed"
      = (.error (.resolver (.ambiguous "a" ["ab", "ac"])),
         some [DirEntry.mk "ab.md" false "x", DirEntry.mk "ac.md" false "y"])
    ∧ storeDelete (some [DirEntry.mk "ab.md" false "x", DirEntry.mk "ac.md" false "y"]) "a"
      = (.error (.resolver (.ambiguous "a" ["ab", "ac"])),
         some [DirEntry.mk "ab.md" false "x", DirEntry.mk "ac.md" false "y"])
    ∧ storeReadRaw (some [DirEntry.mk "ab.md" false "x", DirEntry.mk "ac.md" false "y"]) "a"
      = (.error (.resolver (.ambiguous "a" ["ab", "ac"])),
         some [DirEntry.mk "ab.md" false "x", DirEntry.mk "ac.md" false "y"])
    ∧ storeAppendToFile (some [DirEntry.mk "ab.md" false "x", DirEntry.mk "ac.md" false "y"]) "a" "note"
      = (.error (.resolver (.ambiguous "a" ["ab", "ac"])),
         some [DirEntry.mk "ab.md" false "x", DirEntry.mk "ac.md" false "y"]) :=
  store_ops_resolver_error_frame
    (some [DirEntry.mk "ab.md" false "x", DirEntry.mk "ac.md" false "y"])
    "a" (.ambiguous "a" ["ab", "ac"]) (by decide) "status" "closed" "note"

/-! ## Round trip `Parse ∘ Format` (C5) — well-formedness and support -/

/-- Characters that survive every layer of the format unescaped: the
ID-like plain scalars the tracker stores (alphanumerics plus `-`, `_`,
`.`, `/`). -/
def safeChar (c : Char) : Bool :=
  c.isAlphanum || c = '-' || c = '_' || c = '.' || c = '/'

def safeStr (s : String) : Bool := s.data.all safeChar

/-- Calendar validity at the bounds Go's RFC3339 parsing enforces. -/
def dtWF (dt : DateTime) : Bool :=
  decide (dt.year ≤ 9999) && decide (1 ≤ dt.month) && decide (dt.month ≤ 12)
    && decide (1 ≤ dt.day) && decide (dt.day ≤ daysInMonth dt.year dt.month)
    && decide (dt.hour ≤ 23) && decide (dt.minute ≤ 59)
    && decide (dt.second ≤ 59)

/-- A ticket whose fields use the format unambiguously: ID-like scalar
fields, non-empty ID-like dependency/link entries, an in-range timestamp,
a non-empty single-line title that carries no surrounding whitespace, and
a body that is `TrimSpace`-stable and carriage-return free. -/
def wellFormed (t : Ticket) : Bool :=
  safeStr t.id && safeStr t.status && safeStr t.type
    && t.deps.all (fun s => safeStr s && !(s == ""))
    && t.links.all (fun s => safeStr s && !(s == ""))
    && dtWF t.created
    && safeStr t.assignee && safeStr t.externalRef && safeStr t.parent
    && !(t.title == "") && t.title.data.all (fun c => !(c == '\n'))
    && (trimWS t.title.data == t.title.data)
    && (trimWS t.body.data == t.body.data)
    && t.body.data.all (fun c => !(c == '\r'))

/-! ### Trim lemmas -/

theorem trimLeftWS_suffix (l : List Char) : trimLeftWS l <:+ l := by
  induction l with
  | nil => exact List.suffix_refl _
  | cons c cs ih =>
    unfold trimLeftWS
    split
    · exact ih.trans (List.suffix_cons c cs)
    · exact List.suffix_refl _

theorem trimLeftWS_length_le (l : List Char) :
    (trimLeftWS l).length ≤ l.length :=
  (trimLeftWS_suffix l).length_le

theorem trimRightWS_length_le (l : List Char) :
    (trimRightWS l).length ≤ l.length := by
  unfold trimRightWS
  rw [List.length_reverse]
  calc (trimLeftWS l.reverse).length ≤ l.reverse.length :=
        trimLeftWS_length_le _
    _ = l.length := List.length_reverse _

theorem trim_fix_parts (l : List Char) (h : trimWS l = l) :
    trimRightWS l = l ∧ trimLeftWS l = l := by
  have hlen1 : (trimLeftWS (trimRightWS l)).length ≤ (trimRightWS l).length :=
    trimLeftWS_length_le _
  have hlen2 : (trimRightWS l).length ≤ l.length := trimRightWS_length_le l
  have hl : trimLeftWS (trimRightWS l) = l := h
  have hlen3 : (trimRightWS l).length = l.length := by
    have hlen0 := congrArg List.length hl
    omega
  have hright : trimRightWS l = l := by
    unfold trimRightWS
    have hsuf : trimLeftWS l.reverse <:+ l.reverse := trimLeftWS_suffix _
    have hlen4 : (trimLeftWS l.reverse).length = l.reverse.length := by
      unfold trimRightWS at hlen3
      rw [List.length_reverse] at hlen3
      rw [List.length_reverse]
      exact hlen3
    rw [List.IsSuffix.eq_of_length hsuf hlen4, List.reverse_reverse]
  refine ⟨hright, ?_⟩
  rw [hright] at hl
  exact hl

theorem trimLeftWS_cons_not_ws (c : Char) (cs : List Char)
    (h : c.isWhitespace = false) : trimLeftWS (c :: cs) = c :: cs := by
  rw [show trimLeftWS (c :: cs)
      = if c.isWhitespace = true then trimLeftWS cs else c :: cs from rfl]
  rw [if_neg (by rw [h]; exact Bool.false_ne_true)]

theorem trimLeftWS_cons_ws (c : Char) (cs : List Char)
    (h : c.isWhitespace = true) : trimLeftWS (c :: cs) = trimLeftWS cs := by
  rw [show trimLeftWS (c :: cs)
      = if c.isWhitespace = true then trimLeftWS cs else c :: cs from rfl]
  rw [if_pos h]

theorem trimRightWS_eq_self (l : List Char) (init : List Char) (c : Char)
    (hl : l = init ++ [c]) (hc : c.isWhitespace = false) :
    trimRightWS l = l := by
  subst hl
  unfold trimRightWS
  have hrev : (init ++ [c]).reverse = c :: init.reverse := by simp
  rw [hrev, trimLeftWS_cons_not_ws _ _ hc, ← hrev, List.reverse_reverse]

theorem getLast_not_ws_of_trim_fix (l : List Char) (h : trimWS l = l)
    (hne : l ≠ []) : ∃ init c, l = init ++ [c] ∧ c.isWhitespace = false := by
  obtain ⟨c, hc⟩ := List.getLast?_isSome.mpr hne |> Option.isSome_iff_exists.mp
  obtain ⟨init, hinit⟩ := List.getLast?_eq_some_iff.mp hc
  refine ⟨init, c, hinit, ?_⟩
  by_contra hws
  have hws' : c.isWhitespace = true := by
    cases hx : c.isWhitespace with
    | true => rfl
    | false => exact absurd hx hws
  have hright := (trim_fix_parts l h).1
  have heq : trimRightWS l = trimRightWS init := by
    unfold trimRightWS
    rw [hinit]
    have hrev : (init ++ [c]).reverse = c :: init.reverse := by simp
    rw [hrev, trimLeftWS_cons_ws _ _ hws']
  rw [hright] at heq
  have hlen := congrArg List.length heq
  have hle := trimRightWS_length_le init
  have hl2 : l.length = init.length + 1 := by rw [hinit]; simp
  omega

theorem head_not_ws_of_trim_fix (l : List Char) (c : Char) (cs : List Char)
    (h : trimWS l = l) (hl : l = c :: cs) : c.isWhitespace = false := by
  have hleft := (trim_fix_parts l h).2
  by_contra hws
  have hws' : c.isWhitespace = true := by
    cases hx : c.isWhitespace with
    | true => rfl
    | false => exact absurd hx hws
  rw [hl, trimLeftWS_cons_ws _ _ hws'] at hleft
  have hlen := congrArg List.length hleft
  have hle := trimLeftWS_length_le cs
  simp at hlen
  omega

theorem trimWS_eq_self (l : List Char) (c0 : Char) (cs : List Char)
    (init : List Char) (cl : Char) (hhead : l = c0 :: cs)
    (hc0 : c0.isWhitespace = false) (hlast : l = init ++ [cl])
    (hcl : cl.isWhitespace = false) : trimWS l = l := by
  unfold trimWS
  rw [trimRightWS_eq_self l init cl hlast hcl, hhead,
    trimLeftWS_cons_not_ws _ _ hc0]

theorem trimWS_newline_cons (body : List Char) (h : trimWS body = body)
    (hne : body ≠ []) : trimWS ('\n' :: body) = body := by
  obtain ⟨init, c, hl, hc⟩ := getLast_not_ws_of_trim_fix body h hne
  have hr : trimRightWS ('\n' :: body) = '\n' :: body := by
    refine trimRightWS_eq_self _ ('\n' :: init) c ?_ hc
    rw [hl, List.cons_append]
  unfold trimWS
  rw [hr, trimLeftWS_cons_ws _ _ (by decide)]
  exact (trim_fix_parts body h).2

theorem not_endsWith_nl_of_trim_fix (l : List Char) (h : trimWS l = l)
    (hne : l ≠ []) : endsWithL l ['\n'] = false := by
  cases hE : endsWithL l ['\n'] with
  | false => rfl
  | true =>
    obtain ⟨init, hinit⟩ := (endsWithL_iff l ['\n']).mp hE
    obtain ⟨init', c, hl, hc⟩ := getLast_not_ws_of_trim_fix l h hne
    have h1 : l.getLast? = some '\n' := by
      rw [← hinit]; exact List.getLast?_concat _
    have h2 : l.getLast? = some c := by
      rw [hl]; exact List.getLast?_concat _
    rw [h1] at h2
    injection h2 with h3
    rw [← h3] at hc
    cases hc

/-! ### Safe-character and digit lemmas -/

theorem safeStr_not_mem (s : String) (x : Char) (h : safeStr s = true)
    (hx : safeChar x = false) : x ∉ s.data := by
  intro hm
  have := List.all_eq_true.mp h x hm
  rw [hx] at this
  cases this

theorem leadsWith_append_self (p v : List Char) :
    leadsWith (p ++ v) p = true := by
  induction p with
  | nil =>
    rw [List.nil_append]
    cases v <;> rfl
  | cons a ps ih => simp [leadsWith, ih]

theorem endsWithL_concat (l : List Char) (c : Char) :
    endsWithL (l ++ [c]) [c] = true := by
  rw [endsWithL_iff]
  exact ⟨l, rfl⟩

theorem dval_digitChar (d : Nat) (hd : d < 10) : dval (digitChar d) = d := by
  have : ∀ d, d < 10 → dval (digitChar d) = d := by decide
  exact this d hd

theorem digitChar_isDigit (d : Nat) (hd : d < 10) :
    (digitChar d).isDigit = true := by
  have : ∀ d, d < 10 → (digitChar d).isDigit = true := by decide
  exact this d hd

theorem digitChar_mod_ne (k : Nat) (x : Char) (hx : x.isDigit = false) :
    digitChar (k % 10) ≠ x := by
  intro he
  have h1 := digitChar_isDigit (k % 10) (Nat.mod_lt _ (by norm_num))
  rw [he, hx] at h1
  cases h1

theorem isDigit_ne (c x : Char) (hc : c.isDigit = true)
    (hx : x.isDigit = false) : c ≠ x := by
  intro he
  rw [he, hx] at hc
  cases hc

/-! ### Decimal printing round trip -/

theorem decNat_spec (n : Nat) :
    (decNat n).all Char.isDigit = true
    ∧ (decNat n).foldl (fun a c => a * 10 + dval c) 0 = n
    ∧ decNat n ≠ [] := by
  induction n using Nat.strong_induction_on with
  | _ n ih =>
    by_cases h : n < 10
    · rw [decNat, dif_pos h]
      refine ⟨by simp [digitChar_isDigit n h], ?_, by simp⟩
      simp [List.foldl, dval_digitChar n h]
    · rw [decNat, dif_neg h]
      have hdiv : n / 10 < n := Nat.div_lt_self (by omega) (by norm_num)
      obtain ⟨ha, hv, hne⟩ := ih (n / 10) hdiv
      refine ⟨?_, ?_, by simp⟩
      · rw [List.all_append, ha]
        simp [digitChar_isDigit (n % 10) (Nat.mod_lt _ (by norm_num))]
      · rw [List.foldl_append, hv]
        simp only [List.foldl]
        rw [dval_digitChar (n % 10) (Nat.mod_lt _ (by norm_num))]
        omega

theorem parseDigits_decNat (n : Nat) : parseDigits (decNat n) = some n := by
  obtain ⟨ha, hv, hne⟩ := decNat_spec n
  unfold parseDigits
  rw [if_neg hne, if_pos ha, hv]

theorem decNat_head_digit (n : Nat) :
    ∃ c cs, decNat n = c :: cs ∧ c.isDigit = true := by
  obtain ⟨ha, _, hne⟩ := decNat_spec n
  cases hd : decNat n with
  | nil => exact absurd hd hne
  | cons c cs =>
    refine ⟨c, cs, rfl, ?_⟩
    rw [hd] at ha
    exact List.all_eq_true.mp ha c (List.mem_cons_self _ _)

theorem parseIntL_cons_ne (c : Char) (rest : List Char) (hc : c ≠ '-') :
    parseIntL (c :: rest)
      = match parseDigits (c :: rest) with
        | some n => some ((n : Int))
        | none => none := by
  rw [parseIntL.eq_def]
  split
  · rename_i heq
    injection heq with h1 _
    exact (hc h1).elim
  · rfl

theorem parseIntL_decInt (i : Int) : parseIntL (decInt i) = some i := by
  unfold decInt
  by_cases hneg : i < 0
  · rw [if_pos hneg]
    rw [show parseIntL ('-' :: decNat (-i).toNat)
        = match parseDigits (decNat (-i).toNat) with
          | some n => some (-(n : Int))
          | none => none from rfl]
    rw [parseDigits_decNat]
    show some (-(((-i).toNat : Nat) : Int)) = some i
    have h2 : ((-i).toNat : Int) = -i := Int.toNat_of_nonneg (by omega)
    rw [h2, neg_neg]
  · rw [if_neg hneg]
    obtain ⟨c, cs, hd, hdig⟩ := decNat_head_digit i.toNat
    rw [hd, parseIntL_cons_ne c cs (isDigit_ne c '-' hdig (by decide)), ← hd,
      parseDigits_decNat]
    show some ((i.toNat : Nat) : Int) = some i
    rw [Int.toNat_of_nonneg (by omega)]

/-! ### Flow-array round trip -/

theorem splitCS_cons_ne (c : Char) (rest : List Char) (hc : c ≠ ',') :
    splitCS (c :: rest)
      = match splitCS rest with
        | [] => [[c]]
        | h :: t => (c :: h) :: t := by
  rw [splitCS.eq_def]
  split
  · rename_i heq; cases heq
  · rename_i heq
    injection heq with h1 _
    exact (hc h1).elim
  · rename_i heq
    injection heq with h1 h2
    subst h1
    subst h2
    rfl

theorem splitCS_ne_nil (l : List Char) : splitCS l ≠ [] := by
  rw [splitCS.eq_def]
  split
  · simp
  · simp
  · rename_i c rest hno
    cases h : splitCS rest <;> simp

theorem splitCS_append_sep (p rest : List Char) (hp : ',' ∉ p) :
    splitCS (p ++ ',' :: ' ' :: rest) = p :: splitCS rest := by
  induction p with
  | nil => rfl
  | cons c cs ih =>
    have hc : c ≠ ',' := fun h => hp (h ▸ List.mem_cons_self c cs)
    have hcs : ',' ∉ cs := fun hm => hp (List.mem_cons_of_mem c hm)
    rw [List.cons_append, splitCS_cons_ne c _ hc, ih hcs]

theorem splitCS_no_sep (p : List Char) (hp : ',' ∉ p) : splitCS p = [p] := by
  induction p with
  | nil => rfl
  | cons c cs ih =>
    have hc : c ≠ ',' := fun h => hp (h ▸ List.mem_cons_self c cs)
    have hcs : ',' ∉ cs := fun hm => hp (List.mem_cons_of_mem c hm)
    rw [splitCS_cons_ne c _ hc, ih hcs]

theorem splitCS_joinCS (ps : List (List Char)) (hne : ps ≠ [])
    (h : ∀ p ∈ ps, ',' ∉ p) : splitCS (joinCS ps) = ps := by
  induction ps with
  | nil => exact absurd rfl hne
  | cons p ps ih =>
    cases ps with
    | nil => exact splitCS_no_sep p (h p (List.mem_cons_self _ _))
    | cons q qs =>
      have hp : ',' ∉ p := h p (List.mem_cons_self _ _)
      have hrest : ∀ r ∈ q :: qs, ',' ∉ r := fun r hr =>
        h r (List.mem_cons_of_mem p hr)
      rw [show joinCS (p :: q :: qs) = p ++ ',' :: ' ' :: joinCS (q :: qs)
        from rfl]
      rw [splitCS_append_sep p _ hp, ih (by simp) hrest]

theorem mk_data (s : String) : String.mk s.data = s := by cases s; rfl

theorem data_ne_nil (s : String) (h : s ≠ "") : s.data ≠ [] := by
  intro hd
  apply h
  cases s with
  | mk l =>
    rw [data_mk] at hd
    rw [hd]

theorem parseFlow_formatArray (arr : List String)
    (h : ∀ s ∈ arr, safeStr s = true ∧ s ≠ "") :
    parseFlow (formatArray arr) = some arr := by
  cases arr with
  | nil => rfl
  | cons s ss =>
    rw [show formatArray (s :: ss)
        = '[' :: joinCS ((s :: ss).map String.data) ++ [']'] by
      rw [formatArray, if_neg (by simp)]]
    rw [show ('[' :: joinCS ((s :: ss).map String.data)) ++ [']']
        = '[' :: (joinCS ((s :: ss).map String.data) ++ [']'])
      from List.cons_append _ _ _]
    rw [show parseFlow ('[' :: (joinCS ((s :: ss).map String.data) ++ [']']))
        = (if endsWithL (joinCS ((s :: ss).map String.data) ++ [']']) [']']
           then
             let inner := (joinCS ((s :: ss).map String.data) ++ [']']).dropLast
             if inner = [] then some []
             else some ((splitCS inner).map (fun p => ⟨p⟩))
           else none) from rfl]
    rw [if_pos (endsWithL_concat _ _)]
    simp only [List.dropLast_concat]
    have hnonempty : joinCS ((s :: ss).map String.data) ≠ [] := by
      cases ss with
      | nil =>
        simp only [List.map_cons, List.map_nil]
        exact data_ne_nil s (h s (List.mem_cons_self _ _)).2
      | cons q qs =>
        rw [show joinCS ((s :: q :: qs).map String.data)
            = s.data ++ ',' :: ' ' :: joinCS ((q :: qs).map String.data)
          from rfl]
        intro hc
        rcases List.append_eq_nil.mp hc with ⟨_, h2⟩
        cases h2
    rw [if_neg hnonempty]
    rw [splitCS_joinCS ((s :: ss).map String.data) (by simp) ?hcomma]
    case hcomma =>
      intro p hp
      rcases List.mem_map.mp hp with ⟨x, hx, hpx⟩
      subst hpx
      exact safeStr_not_mem x ',' (h x hx).1 (by decide)
    congr 1
    rw [List.map_map]
    have hcomp : (fun p => (⟨p⟩ : String)) ∘ String.data = id := by
      funext x
      exact mk_data x
    rw [hcomp, List.map_id]

theorem parseRFC3339_formatRFC3339 (dt : DateTime) (h : dtWF dt = true) :
    parseRFC3339 (formatRFC3339 dt) = some dt := by
  simp only [dtWF, Bool.and_eq_true, decide_eq_true_eq] at h
  obtain ⟨⟨⟨⟨⟨⟨⟨hy, hm1⟩, hm2⟩, hd1⟩, hd2⟩, hh⟩, hmi⟩, hs⟩ := h
  have hdig : ∀ k : Nat, (digitChar (k % 10)).isDigit = true :=
    fun k => digitChar_isDigit _ (Nat.mod_lt _ (by norm_num))
  have hdval : ∀ k : Nat, dval (digitChar (k % 10)) = k % 10 :=
    fun k => dval_digitChar _ (Nat.mod_lt _ (by norm_num))
  simp only [formatRFC3339, pad4, pad2, List.cons_append, List.nil_append,
    parseRFC3339]
  rw [if_pos (by simp [hdig])]
  have hyr : dt.year / 1000 % 10 * 1000 + dt.year / 100 % 10 * 100
      + dt.year / 10 % 10 * 10 + dt.year % 10 = dt.year := by
    have a1 : dt.year / 100 / 10 = dt.year / 1000 := by
      rw [Nat.div_div_eq_div_mul]
    have a2 : dt.year / 10 / 10 = dt.year / 100 := by
      rw [Nat.div_div_eq_div_mul]
    omega
  have hmo : dt.month / 10 % 10 * 10 + dt.month % 10 = dt.month := by omega
  have hdy : dt.day / 10 % 10 * 10 + dt.day % 10 = dt.day := by
    have hd3 : dt.day ≤ 31 := by
      have hdm : daysInMonth dt.year dt.month ≤ 31 := by
        unfold daysInMonth
        split
        · split <;> omega
        · split <;> omega
      omega
    omega
  have hhr : dt.hour / 10 % 10 * 10 + dt.hour % 10 = dt.hour := by omega
  have hmn : dt.minute / 10 % 10 * 10 + dt.minute % 10 = dt.minute := by omega
  have hsc : dt.second / 10 % 10 * 10 + dt.second % 10 = dt.second := by omega
  simp only [hdval, hyr, hmo, hdy, hhr, hmn, hsc]
  rw [if_pos ⟨hm1, hm2, hd1, hd2, hh, hmi, hs⟩]

/-! ### Lines of the serialized record are newline- and CR-free -/

/-- A line that the scanner hands back unchanged. -/
def goodLine (l : List Char) : Prop := '\n' ∉ l ∧ '\r' ∉ l

theorem joinCS_mem (ps : List (List Char)) (x : Char) (hm : x ∈ joinCS ps) :
    (∃ p ∈ ps, x ∈ p) ∨ x = ',' ∨ x = ' ' := by
  induction ps with
  | nil => cases hm
  | cons p ps ih =>
    cases ps with
    | nil => exact Or.inl ⟨p, List.mem_cons_self _ _, hm⟩
    | cons q qs =>
      rw [show joinCS (p :: q :: qs) = p ++ ',' :: ' ' :: joinCS (q :: qs)
        from rfl] at hm
      rcases List.mem_append.mp hm with h | h
      · exact Or.inl ⟨p, List.mem_cons_self _ _, h⟩
      · rcases List.mem_cons.mp h with h | h
        · exact Or.inr (Or.inl h)
        · rcases List.mem_cons.mp h with h | h
          · exact Or.inr (Or.inr h)
          · rcases ih h with ⟨r, hr, hxr⟩ | h
            · exact Or.inl ⟨r, List.mem_cons_of_mem _ hr, hxr⟩
            · exact Or.inr h

theorem formatArray_good (arr : List String)
    (h : ∀ s ∈ arr, safeStr s = true) (x : Char)
    (hx : safeChar x = false) (hb : x ∉ ['[', ']', ',', ' ']) :
    x ∉ formatArray arr := by
  intro hm
  unfold formatArray at hm
  split at hm
  · revert hm
    simp at hb
    simp [hb.1, hb.2.1]
  · rcases List.mem_cons.mp hm with h1 | h1
    · exact hb (by rw [h1]; simp)
    · rcases List.mem_append.mp h1 with h2 | h2
      · rcases joinCS_mem _ x h2 with ⟨p, hp, hxp⟩ | h3 | h3
        · rcases List.mem_map.mp hp with ⟨s, hs, hps⟩
          exact safeStr_not_mem s x (h s hs) hx (hps ▸ hxp)
        · exact hb (by rw [h3]; simp)
        · exact hb (by rw [h3]; simp)
      · rcases List.mem_cons.mp h2 with h3 | h3
        · exact hb (by rw [h3]; simp)
        · cases h3

theorem pad2_mem (n : Nat) (x : Char) (hm : x ∈ pad2 n) :
    x.isDigit = true := by
  rcases List.mem_cons.mp hm with rfl | hm'
  · exact digitChar_isDigit _ (Nat.mod_lt _ (by norm_num))
  · rcases List.mem_cons.mp hm' with rfl | hm''
    · exact digitChar_isDigit _ (Nat.mod_lt _ (by norm_num))
    · cases hm''

theorem pad4_mem (n : Nat) (x : Char) (hm : x ∈ pad4 n) :
    x.isDigit = true := by
  rcases List.mem_cons.mp hm with rfl | hm'
  · exact digitChar_isDigit _ (Nat.mod_lt _ (by norm_num))
  · rcases List.mem_cons.mp hm' with rfl | hm''
    · exact digitChar_isDigit _ (Nat.mod_lt _ (by norm_num))
    · rcases List.mem_cons.mp hm'' with rfl | hm3
      · exact digitChar_isDigit _ (Nat.mod_lt _ (by norm_num))
      · rcases List.mem_cons.mp hm3 with rfl | hm4
        · exact digitChar_isDigit _ (Nat.mod_lt _ (by norm_num))
        · cases hm4

theorem formatRFC3339_mem (dt : DateTime) (x : Char)
    (hm : x ∈ formatRFC3339 dt) :
    x.isDigit = true ∨ x = '-' ∨ x = 'T' ∨ x = ':' ∨ x = 'Z' := by
  unfold formatRFC3339 at hm
  simp only [List.mem_append, List.mem_cons, List.not_mem_nil,
    or_false, or_assoc] at hm
  rcases hm with h|h|h|h|h|h|h|h|h|h|h|h <;>
    first
      | exact Or.inl (pad4_mem _ _ h)
      | exact Or.inl (pad2_mem _ _ h)
      | simp [h]

theorem decNat_mem_digit (n : Nat) (x : Char) (hm : x ∈ decNat n) :
    x.isDigit = true := by
  have := (decNat_spec n).1
  exact List.all_eq_true.mp this x hm

theorem decInt_mem (i : Int) (x : Char) (hm : x ∈ decInt i) :
    x.isDigit = true ∨ x = '-' := by
  unfold decInt at hm
  split at hm
  · rcases List.mem_cons.mp hm with h | h
    · exact Or.inr h
    · exact Or.inl (decNat_mem_digit _ x h)
  · exact Or.inl (decNat_mem_digit _ x hm)

/-! ### The serialized record, line by line -/

/-- Lines joined with a terminating newline after each — the exact shape
`Format` writes. -/
def linesJoin (ps : List (List Char)) : List Char :=
  (ps.map (fun p => p ++ ['\n'])).flatten

/-- The frontmatter lines `Format` emits, in order. -/
def fmLinesOf (t : Ticket) : List (List Char) :=
  ["id: ".data ++ t.id.data,
   "status: ".data ++ t.status.data,
   "deps: ".data ++ formatArray t.deps,
   "links: ".data ++ formatArray t.links,
   "created: ".data ++ formatRFC3339 t.created,
   "type: ".data ++ t.type.data,
   "priority: ".data ++ decInt t.priority]
  ++ (if t.assignee ≠ "" then ["assignee: ".data ++ t.assignee.data] else [])
  ++ (if t.externalRef ≠ "" then
        ["external-ref: ".data ++ t.externalRef.data] else [])
  ++ (if t.parent ≠ "" then ["parent: ".data ++ t.parent.data] else [])

/-- The body's contribution to the line list: a blank separator line and
the body's own lines. -/
def bodyTailOf (t : Ticket) : List (List Char) :=
  if t.body = "" then [] else [] :: splitNL t.body.data

/-- Every line of the serialized record, in order. -/
def allLinesOf (t : Ticket) : List (List Char) :=
  "---".data :: fmLinesOf t
    ++ "---".data :: ("# ".data ++ t.title.data) :: bodyTailOf t

theorem linesJoin_eq (ps : List (List Char)) (hne : ps ≠ []) :
    linesJoin ps = joinNL ps ++ ['\n'] := by
  induction ps with
  | nil => exact absurd rfl hne
  | cons p ps ih =>
    cases ps with
    | nil => simp [linesJoin, joinNL]
    | cons q qs =>
      rw [show linesJoin (p :: q :: qs)
          = (p ++ ['\n']) ++ linesJoin (q :: qs) by simp [linesJoin]]
      rw [ih (by simp)]
      rw [show joinNL (p :: q :: qs) = p ++ '\n' :: joinNL (q :: qs) from rfl]
      simp

theorem linesJoin_cons (p : List Char) (ps : List (List Char)) :
    linesJoin (p :: ps) = p ++ '\n' :: linesJoin ps := by
  simp [linesJoin]

theorem linesJoin_append (xs ys : List (List Char)) :
    linesJoin (xs ++ ys) = linesJoin xs ++ linesJoin ys := by
  simp [linesJoin]

theorem linesJoin_if (c : Prop) [Decidable c] (l : List Char) :
    linesJoin (if c then [l] else []) = if c then l ++ ['\n'] else [] := by
  split <;> simp [linesJoin]

theorem formatTicket_eq_linesJoin (t : Ticket)
    (hb : t.body ≠ "" → endsWithL t.body.data ['\n'] = false) :
    formatTicket t = linesJoin (allLinesOf t) := by
  have h1 : linesJoin (allLinesOf t)
      = ("---".data ++ ['\n'])
        ++ (linesJoin (fmLinesOf t)
        ++ (("---".data ++ ['\n'])
        ++ ((("# ".data ++ t.title.data) ++ ['\n'])
        ++ linesJoin (bodyTailOf t)))) := by
    unfold allLinesOf
    rw [show "---".data :: fmLinesOf t
          ++ "---".data :: ("# ".data ++ t.title.data) :: bodyTailOf t
        = ("---".data :: fmLinesOf t)
          ++ ("---".data :: ("# ".data ++ t.title.data) :: bodyTailOf t)
      from rfl]
    rw [linesJoin_append, linesJoin_cons, linesJoin_cons, linesJoin_cons]
    simp [List.append_assoc]
  have h2 : linesJoin (fmLinesOf t)
      = ("id: ".data ++ t.id.data ++ ['\n'])
        ++ (("status: ".data ++ t.status.data ++ ['\n'])
        ++ (("deps: ".data ++ formatArray t.deps ++ ['\n'])
        ++ (("links: ".data ++ formatArray t.links ++ ['\n'])
        ++ (("created: ".data ++ formatRFC3339 t.created ++ ['\n'])
        ++ (("type: ".data ++ t.type.data ++ ['\n'])
        ++ (("priority: ".data ++ decInt t.priority ++ ['\n'])
        ++ ((if t.assignee ≠ "" then
              "assignee: ".data ++ t.assignee.data ++ ['\n'] else [])
        ++ ((if t.externalRef ≠ "" then
              "external-ref: ".data ++ t.externalRef.data ++ ['\n'] else [])
        ++ (if t.parent ≠ "" then
              "parent: ".data ++ t.parent.data ++ ['\n'] else []))))))))) := by
    unfold fmLinesOf
    rw [linesJoin_append, linesJoin_append, linesJoin_append,
      linesJoin_cons, linesJoin_cons, linesJoin_cons, linesJoin_cons,
      linesJoin_cons, linesJoin_cons, linesJoin_cons,
      linesJoin_if, linesJoin_if, linesJoin_if]
    simp [linesJoin, List.append_assoc]
  have h3 : linesJoin (bodyTailOf t)
      = if t.body = "" then [] else '\n' :: (t.body.data ++ ['\n']) := by
    unfold bodyTailOf
    split
    · simp [linesJoin]
    · rw [linesJoin_cons,
        linesJoin_eq (splitNL t.body.data) (splitNL_ne_nil _),
        joinNL_splitNL]
      rfl
  rw [h1, h2, h3]
  unfold formatTicket
  by_cases hbody : t.body = ""
  · rw [if_pos hbody, if_neg (show ¬(t.body ≠ "") from fun hne => hne hbody)]
    simp only [List.append_assoc, List.cons_append, List.nil_append,
      List.append_nil]
  · rw [if_neg hbody, if_pos (show t.body ≠ "" from hbody), hb hbody,
      if_neg Bool.false_ne_true]
    simp only [List.append_assoc, List.cons_append, List.nil_append,
      List.append_nil]

theorem splitNL_linesJoin (ps : List (List Char))
    (h : ∀ p ∈ ps, '\n' ∉ p) : splitNL (linesJoin ps) = ps ++ [[]] := by
  induction ps with
  | nil => rfl
  | cons p rest ih =>
    rw [linesJoin_cons,
      splitNL_append_cons p _ (h p (List.mem_cons_self _ _)),
      ih (fun q hq => h q (List.mem_cons_of_mem p hq))]
    rfl

theorem endsWithL_single_mem (l : List Char) (c : Char)
    (h : endsWithL l [c] = true) : c ∈ l := by
  obtain ⟨init, hi⟩ := (endsWithL_iff _ _).mp h
  rw [← hi]
  simp

theorem dropCR_eq_self (p : List Char) (h : endsWithL p ['\r'] = false) :
    dropCR p = p := by
  unfold dropCR
  rw [if_neg (by rw [h]; exact Bool.false_ne_true)]

/-- A line of serialized output: newline-free and not CR-terminated, so
the scanner returns it verbatim. -/
def goodL (l : List Char) : Prop :=
  '\n' ∉ l ∧ endsWithL l ['\r'] = false

theorem goodL_of_not_mem (l : List Char) (h1 : '\n' ∉ l) (h2 : '\r' ∉ l) :
    goodL l := by
  refine ⟨h1, ?_⟩
  cases hE : endsWithL l ['\r'] with
  | false => rfl
  | true => exact absurd (endsWithL_single_mem l '\r' hE) h2

theorem scanLines_linesJoin (ps : List (List Char))
    (hg : ∀ p ∈ ps, goodL p) : scanLines (linesJoin ps) = ps := by
  unfold scanLines
  rw [splitNL_linesJoin ps (fun p hp => (hg p hp).1)]
  show List.map dropCR
      (if (ps ++ [[]]).getLast? = some [] then (ps ++ [[]]).dropLast
       else ps ++ [[]]) = ps
  rw [List.getLast?_concat, if_pos rfl, List.dropLast_concat]
  rw [List.map_congr_left (fun p hp => dropCR_eq_self p (hg p hp).2)]
  exact List.map_id _

/-! ### The frontmatter state machine on the emitted lines -/

theorem scanStep_fm (fm body : List (List Char)) (l : List Char)
    (hl : l ≠ "---".data) :
    scanStep ⟨true, true, false, fm, body⟩ l
      = ⟨true, true, false, fm ++ [l], body⟩ := by
  unfold scanStep
  rw [if_neg (by simp), if_neg (by simp [hl]), if_pos rfl]

theorem fold_fm (L : List (List Char)) (hL : ∀ l ∈ L, l ≠ "---".data)
    (fm body : List (List Char)) :
    L.foldl scanStep ⟨true, true, false, fm, body⟩
      = ⟨true, true, false, fm ++ L, body⟩ := by
  induction L generalizing fm with
  | nil => simp
  | cons l rest ih =>
    rw [List.foldl_cons, scanStep_fm fm body l (hL l (List.mem_cons_self _ _)),
      ih (fun q hq => hL q (List.mem_cons_of_mem l hq))]
    simp

theorem scanStep_done (fm body : List (List Char)) (l : List Char) :
    scanStep ⟨true, false, true, fm, body⟩ l
      = ⟨true, false, true, fm, body ++ [l]⟩ := by
  unfold scanStep
  rw [if_neg (by simp), if_neg (by simp), if_neg (by simp), if_pos rfl]

theorem fold_done (R : List (List Char)) (fm body : List (List Char)) :
    R.foldl scanStep ⟨true, false, true, fm, body⟩
      = ⟨true, false, true, fm, body ++ R⟩ := by
  induction R generalizing body with
  | nil => simp
  | cons l rest ih =>
    rw [List.foldl_cons, scanStep_done fm body l, ih]
    simp

theorem scanTicket_format (t : Ticket)
    (hb : t.body ≠ "" → endsWithL t.body.data ['\n'] = false)
    (hL : ∀ l ∈ fmLinesOf t, l ≠ "---".data)
    (hg : ∀ l ∈ allLinesOf t, goodL l) :
    scanTicket (formatTicket t)
      = (fmLinesOf t, ("# ".data ++ t.title.data) :: bodyTailOf t) := by
  unfold scanTicket
  rw [formatTicket_eq_linesJoin t hb, scanLines_linesJoin _ hg]
  unfold allLinesOf
  rw [show ("---".data :: fmLinesOf t
        ++ "---".data :: ("# ".data ++ t.title.data) :: bodyTailOf t).foldl
          scanStep ⟨false, false, false, [], []⟩
      = (fmLinesOf t
          ++ "---".data :: ("# ".data ++ t.title.data) :: bodyTailOf t).foldl
          scanStep (scanStep ⟨false, false, false, [], []⟩ "---".data)
    from List.foldl_cons _ _]
  rw [show scanStep ⟨false, false, false, [], []⟩ "---".data
      = ⟨true, true, false, [], []⟩ by
    unfold scanStep
    rw [if_pos ⟨rfl, rfl⟩]]
  rw [List.foldl_append, fold_fm (fmLinesOf t) hL [] []]
  rw [List.foldl_cons]
  rw [show scanStep ⟨true, true, false, [] ++ fmLinesOf t, []⟩ "---".data
      = ⟨true, false, true, [] ++ fmLinesOf t, []⟩ by
    unfold scanStep
    rw [if_neg (by simp), if_pos ⟨rfl, rfl⟩]]
  rw [fold_done]
  simp

/-! ### `yaml.Unmarshal` on the emitted frontmatter lines -/

theorem parseFMLine_id (fm : Frontmatter) (v : List Char) :
    parseFMLine fm ("id: ".data ++ v) = some { fm with id := ⟨v⟩ } := by
  unfold parseFMLine
  rw [if_pos (leadsWith_append_self _ _)]
  rfl

theorem parseFMLine_status (fm : Frontmatter) (v : List Char) :
    parseFMLine fm ("status: ".data ++ v) = some { fm with status := ⟨v⟩ } := by
  unfold parseFMLine
  rw [show leadsWith ("status: ".data ++ v) "id: ".data = false from rfl,
    if_neg Bool.false_ne_true, if_pos (leadsWith_append_self _ _)]
  rfl

theorem parseFMLine_deps (fm : Frontmatter) (v : List Char) :
    parseFMLine fm ("deps: ".data ++ v)
      = (parseFlow v).map (fun arr => { fm with deps := some arr }) := by
  unfold parseFMLine
  rw [show leadsWith ("deps: ".data ++ v) "id: ".data = false from rfl,
    if_neg Bool.false_ne_true,
    show leadsWith ("deps: ".data ++ v) "status: ".data = false from rfl,
    if_neg Bool.false_ne_true, if_pos (leadsWith_append_self _ _)]
  rfl

theorem parseFMLine_links (fm : Frontmatter) (v : List Char) :
    parseFMLine fm ("links: ".data ++ v)
      = (parseFlow v).map (fun arr => { fm with links := some arr }) := by
  unfold parseFMLine
  rw [show leadsWith ("links: ".data ++ v) "id: ".data = false from rfl,
    if_neg Bool.false_ne_true,
    show leadsWith ("links: ".data ++ v) "status: ".data = false from rfl,
    if_neg Bool.false_ne_true,
    show leadsWith ("links: ".data ++ v) "deps: ".data = false from rfl,
    if_neg Bool.false_ne_true, if_pos (leadsWith_append_self _ _)]
  rfl

theorem parseFMLine_created (fm : Frontmatter) (v : List Char) :
    parseFMLine fm ("created: ".data ++ v)
      = some { fm with created := ⟨v⟩ } := by
  unfold parseFMLine
  rw [show leadsWith ("created: ".data ++ v) "id: ".data = false from rfl,
    if_neg Bool.false_ne_true,
    show leadsWith ("created: ".data ++ v) "status: ".data = false from rfl,
    if_neg Bool.false_ne_true,
    show leadsWith ("created: ".data ++ v) "deps: ".data = false from rfl,
    if_neg Bool.false_ne_true,
    show leadsWith ("created: ".data ++ v) "links: ".data = false from rfl,
    if_neg Bool.false_ne_true, if_pos (leadsWith_append_self _ _)]
  rfl

theorem parseFMLine_type (fm : Frontmatter) (v : List Char) :
    parseFMLine fm ("type: ".data ++ v) = some { fm with type := ⟨v⟩ } := by
  unfold parseFMLine
  rw [show leadsWith ("type: ".data ++ v) "id: ".data = false from rfl,
    if_neg Bool.false_ne_true,
    show leadsWith ("type: ".data ++ v) "status: ".data = false from rfl,
    if_neg Bool.false_ne_true,
    show leadsWith ("type: ".data ++ v) "deps: ".data = false from rfl,
    if_neg Bool.false_ne_true,
    show leadsWith ("type: ".data ++ v) "links: ".data = false from rfl,
    if_neg Bool.false_ne_true,
    show leadsWith ("type: ".data ++ v) "created: ".data = false from rfl,
    if_neg Bool.false_ne_true, if_pos (leadsWith_append_self _ _)]
  rfl

theorem parseFMLine_priority (fm : Frontmatter) (v : List Char) :
    parseFMLine fm ("priority: ".data ++ v)
      = (parseIntL v).map (fun n => { fm with priority := n }) := by
  unfold parseFMLine
  rw [show leadsWith ("priority: ".data ++ v) "id: ".data = false from rfl,
    if_neg Bool.false_ne_true,
    show leadsWith ("priority: ".data ++ v) "status: ".data = false from rfl,
    if_neg Bool.false_ne_true,
    show leadsWith ("priority: ".data ++ v) "deps: ".data = false from rfl,
    if_neg Bool.false_ne_true,
    show leadsWith ("priority: ".data ++ v) "links: ".data = false from rfl,
    if_neg Bool.false_ne_true,
    show leadsWith ("priority: ".data ++ v) "created: ".data = false from rfl,
    if_neg Bool.false_ne_true,
    show leadsWith ("priority: ".data ++ v) "type: ".data = false from rfl,
    if_neg Bool.false_ne_true, if_pos (leadsWith_append_self _ _)]
  rfl

theorem parseFMLine_assignee (fm : Frontmatter) (v : List Char) :
    parseFMLine fm ("assignee: ".data ++ v)
      = some { fm with assignee := ⟨v⟩ } := by
  unfold parseFMLine
  rw [show leadsWith ("assignee: ".data ++ v) "id: ".data = false from rfl,
    if_neg Bool.false_ne_true,
    show leadsWith ("assignee: ".data ++ v) "status: ".data = false from rfl,
    if_neg Bool.false_ne_true,
    show leadsWith ("assignee: ".data ++ v) "deps: ".data = false from rfl,
    if_neg Bool.false_ne_true,
    show leadsWith ("assignee: ".data ++ v) "links: ".data = false from rfl,
    if_neg Bool.false_ne_true,
    show leadsWith ("assignee: ".data ++ v) "created: ".data = false from rfl,
    if_neg Bool.false_ne_true,
    show leadsWith ("assignee: ".data ++ v) "type: ".data = false from rfl,
    if_neg Bool.false_ne_true,
    show leadsWith ("assignee: ".data ++ v) "priority: ".data = false from rfl,
    if_neg Bool.false_ne_true, if_pos (leadsWith_append_self _ _)]
  rfl

theorem parseFMLine_externalRef (fm : Frontmatter) (v : List Char) :
    parseFMLine fm ("external-ref: ".data ++ v)
      = some { fm with externalRef := ⟨v⟩ } := by
  unfold parseFMLine
  rw [show leadsWith ("external-ref: ".data ++ v) "id: ".data = false from rfl,
    if_neg Bool.false_ne_true,
    show leadsWith ("external-ref: ".data ++ v) "status: ".data = false
      from rfl,
    if_neg Bool.false_ne_true,
    show leadsWith ("external-ref: ".data ++ v) "deps: ".data = false from rfl,
    if_neg Bool.false_ne_true,
    show leadsWith ("external-ref: ".data ++ v) "links: ".data = false
      from rfl,
    if_neg Bool.false_ne_true,
    show leadsWith ("external-ref: ".data ++ v) "created: ".data = false
      from rfl,
    if_neg Bool.false_ne_true,
    show leadsWith ("external-ref: ".data ++ v) "type: ".data = false from rfl,
    if_neg Bool.false_ne_true,
    show leadsWith ("external-ref: ".data ++ v) "priority: ".data = false
      from rfl,
    if_neg Bool.false_ne_true,
    show leadsWith ("external-ref: ".data ++ v) "assignee: ".data = false
      from rfl,
    if_neg Bool.false_ne_true, if_pos (leadsWith_append_self _ _)]
  rfl

theorem parseFMLine_parent (fm : Frontmatter) (v : List Char) :
    parseFMLine fm ("parent: ".data ++ v)
      = some { fm with parent := ⟨v⟩ } := by
  unfold parseFMLine
  rw [show leadsWith ("parent: ".data ++ v) "id: ".data = false from rfl,
    if_neg Bool.false_ne_true,
    show leadsWith ("parent: ".data ++ v) "status: ".data = false from rfl,
    if_neg Bool.false_ne_true,
    show leadsWith ("parent: ".data ++ v) "deps: ".data = false from rfl,
    if_neg Bool.false_ne_true,
    show leadsWith ("parent: ".data ++ v) "links: ".data = false from rfl,
    if_neg Bool.false_ne_true,
    show leadsWith ("parent: ".data ++ v) "created: ".data = false from rfl,
    if_neg Bool.false_ne_true,
    show leadsWith ("parent: ".data ++ v) "type: ".data = false from rfl,
    if_neg Bool.false_ne_true,
    show leadsWith ("parent: ".data ++ v) "priority: ".data = false from rfl,
    if_neg Bool.false_ne_true,
    show leadsWith ("parent: ".data ++ v) "assignee: ".data = false from rfl,
    if_neg Bool.false_ne_true,
    show leadsWith ("parent: ".data ++ v) "external-ref: ".data = false
      from rfl,
    if_neg Bool.false_ne_true, if_pos (leadsWith_append_self _ _)]
  rfl


/-- The frontmatter record the yaml fold produces for a well-formed
ticket. -/
def fmExpected (t : Ticket) : Frontmatter :=
  { id := t.id, status := t.status, deps := some t.deps,
    links := some t.links, created := ⟨formatRFC3339 t.created⟩,
    type := t.type, priority := t.priority, assignee := t.assignee,
    externalRef := t.externalRef, parent := t.parent }

set_option maxHeartbeats 2000000 in
theorem fmFold (t : Ticket)
    (hdeps : parseFlow (formatArray t.deps) = some t.deps)
    (hlinks : parseFlow (formatArray t.links) = some t.links) :
    (fmLinesOf t).foldlM parseFMLine ({} : Frontmatter)
      = some (fmExpected t) := by
  have h7 : List.foldlM parseFMLine ({} : Frontmatter)
      ["id: ".data ++ t.id.data, "status: ".data ++ t.status.data,
       "deps: ".data ++ formatArray t.deps,
       "links: ".data ++ formatArray t.links,
       "created: ".data ++ formatRFC3339 t.created,
       "type: ".data ++ t.type.data,
       "priority: ".data ++ decInt t.priority]
      = some { id := t.id, status := t.status, deps := some t.deps,
               links := some t.links, created := ⟨formatRFC3339 t.created⟩,
               type := t.type, priority := t.priority, assignee := "",
               externalRef := "", parent := "" } := by
    rw [List.foldlM_cons, parseFMLine_id]
    rw [Option.bind_eq_bind, Option.some_bind]
    rw [List.foldlM_cons, parseFMLine_status]
    rw [Option.bind_eq_bind, Option.some_bind]
    rw [List.foldlM_cons, parseFMLine_deps, hdeps, Option.map_some']
    rw [Option.bind_eq_bind, Option.some_bind]
    rw [List.foldlM_cons, parseFMLine_links, hlinks, Option.map_some']
    rw [Option.bind_eq_bind, Option.some_bind]
    rw [List.foldlM_cons, parseFMLine_created]
    rw [Option.bind_eq_bind, Option.some_bind]
    rw [List.foldlM_cons, parseFMLine_type]
    rw [Option.bind_eq_bind, Option.some_bind]
    rw [List.foldlM_cons, parseFMLine_priority, parseIntL_decInt,
      Option.map_some']
    rw [Option.bind_eq_bind, Option.some_bind]
    rw [List.foldlM_nil, Option.pure_def]
  unfold fmLinesOf
  rw [List.foldlM_append, List.foldlM_append, List.foldlM_append, h7]
  simp only [Option.bind_eq_bind]
  rw [Option.some_bind]
  by_cases ha : t.assignee = ""
  · rw [if_neg (fun hx => hx ha), List.foldlM_nil, Option.pure_def, Option.some_bind]
    by_cases he : t.externalRef = ""
    · rw [if_neg (fun hx => hx he), List.foldlM_nil, Option.pure_def, Option.some_bind]
      by_cases hp : t.parent = ""
      · rw [if_neg (fun hx => hx hp), List.foldlM_nil, Option.pure_def]
        simp [fmExpected, mk_data, ha, he, hp]
      · rw [if_pos hp, List.foldlM_cons, parseFMLine_parent]
        simp only [Option.bind_eq_bind]
        rw [Option.some_bind, List.foldlM_nil, Option.pure_def]
        simp [fmExpected, mk_data, ha, he]
    · rw [if_pos he, List.foldlM_cons, parseFMLine_externalRef]
      simp only [Option.bind_eq_bind]
      rw [Option.some_bind, List.foldlM_nil, Option.pure_def, Option.some_bind]
      by_cases hp : t.parent = ""
      · rw [if_neg (fun hx => hx hp), List.foldlM_nil, Option.pure_def]
        simp [fmExpected, mk_data, ha, hp]
      · rw [if_pos hp, List.foldlM_cons, parseFMLine_parent]
        simp only [Option.bind_eq_bind]
        rw [Option.some_bind, List.foldlM_nil, Option.pure_def]
        simp [fmExpected, mk_data, ha]
  · rw [if_pos ha, List.foldlM_cons, parseFMLine_assignee]
    simp only [Option.bind_eq_bind]
    rw [Option.some_bind, List.foldlM_nil, Option.pure_def, Option.some_bind]
    by_cases he : t.externalRef = ""
    · rw [if_neg (fun hx => hx he), List.foldlM_nil, Option.pure_def, Option.some_bind]
      by_cases hp : t.parent = ""
      · rw [if_neg (fun hx => hx hp), List.foldlM_nil, Option.pure_def]
        simp [fmExpected, mk_data, he, hp]
      · rw [if_pos hp, List.foldlM_cons, parseFMLine_parent]
        simp only [Option.bind_eq_bind]
        rw [Option.some_bind, List.foldlM_nil, Option.pure_def]
        simp [fmExpected, mk_data, he]
    · rw [if_pos he, List.foldlM_cons, parseFMLine_externalRef]
      simp only [Option.bind_eq_bind]
      rw [Option.some_bind, List.foldlM_nil, Option.pure_def, Option.some_bind]
      by_cases hp : t.parent = ""
      · rw [if_neg (fun hx => hx hp), List.foldlM_nil, Option.pure_def]
        simp [fmExpected, mk_data, hp]
      · rw [if_pos hp, List.foldlM_cons, parseFMLine_parent]
        simp only [Option.bind_eq_bind]
        rw [Option.some_bind, List.foldlM_nil, Option.pure_def]
        simp [fmExpected, mk_data]

theorem ne_delim_head (c : Char) (r : List Char) (hc : c ≠ '-') :
    (c :: r) ≠ "---".data := by
  intro h
  rw [show "---".data = '-' :: '-' :: '-' :: [] from rfl] at h
  injection h with h1 _
  exact hc h1

theorem fmLines_ne_delim (t : Ticket) :
    ∀ l ∈ fmLinesOf t, l ≠ "---".data := by
  intro l hl
  unfold fmLinesOf at hl
  simp only [List.mem_append, List.mem_cons, List.not_mem_nil, or_false,
    or_assoc] at hl
  rcases hl with rfl|rfl|rfl|rfl|rfl|rfl|rfl|h|h|h
  · exact ne_delim_head 'i' _ (by decide)
  · exact ne_delim_head 's' _ (by decide)
  · exact ne_delim_head 'd' _ (by decide)
  · exact ne_delim_head 'l' _ (by decide)
  · exact ne_delim_head 'c' _ (by decide)
  · exact ne_delim_head 't' _ (by decide)
  · exact ne_delim_head 'p' _ (by decide)
  · split at h
    · rcases List.mem_cons.mp h with rfl | h'
      · exact ne_delim_head 'a' _ (by decide)
      · cases h'
    · cases h
  · split at h
    · rcases List.mem_cons.mp h with rfl | h'
      · exact ne_delim_head 'e' _ (by decide)
      · cases h'
    · cases h
  · split at h
    · rcases List.mem_cons.mp h with rfl | h'
      · exact ne_delim_head 'p' _ (by decide)
      · cases h'
    · cases h

theorem goodL_key_safe (k : List Char) (s : String)
    (hk1 : '\n' ∉ k) (hk2 : '\r' ∉ k) (hs : safeStr s = true) :
    goodL (k ++ s.data) := by
  refine goodL_of_not_mem _ ?_ ?_ <;> intro hm <;>
    rcases List.mem_append.mp hm with h | h
  · exact hk1 h
  · exact safeStr_not_mem s '\n' hs (by decide) h
  · exact hk2 h
  · exact safeStr_not_mem s '\r' hs (by decide) h

theorem goodL_key_arr (k : List Char) (arr : List String)
    (hk1 : '\n' ∉ k) (hk2 : '\r' ∉ k) (hs : ∀ s ∈ arr, safeStr s = true) :
    goodL (k ++ formatArray arr) := by
  refine goodL_of_not_mem _ ?_ ?_ <;> intro hm <;>
    rcases List.mem_append.mp hm with h | h
  · exact hk1 h
  · exact formatArray_good arr hs '\n' (by decide) (by decide) h
  · exact hk2 h
  · exact formatArray_good arr hs '\r' (by decide) (by decide) h

theorem goodL_key_time (k : List Char) (dt : DateTime)
    (hk1 : '\n' ∉ k) (hk2 : '\r' ∉ k) :
    goodL (k ++ formatRFC3339 dt) := by
  refine goodL_of_not_mem _ ?_ ?_ <;> intro hm <;>
    rcases List.mem_append.mp hm with h | h
  · exact hk1 h
  · rcases formatRFC3339_mem dt '\n' h with h'|h'|h'|h'|h' <;> cases h'
  · exact hk2 h
  · rcases formatRFC3339_mem dt '\r' h with h'|h'|h'|h'|h' <;> cases h'

theorem goodL_key_int (k : List Char) (i : Int)
    (hk1 : '\n' ∉ k) (hk2 : '\r' ∉ k) : goodL (k ++ decInt i) := by
  refine goodL_of_not_mem _ ?_ ?_ <;> intro hm <;>
    rcases List.mem_append.mp hm with h | h
  · exact hk1 h
  · rcases decInt_mem i '\n' h with h' | h' <;> cases h'
  · exact hk2 h
  · rcases decInt_mem i '\r' h with h' | h' <;> cases h'

theorem goodL_title_line (t : Ticket) (htne : t.title ≠ "")
    (htnl : '\n' ∉ t.title.data)
    (htrim : trimWS t.title.data = t.title.data) :
    goodL ("# ".data ++ t.title.data) := by
  obtain ⟨init, c, hl, hc⟩ :=
    getLast_not_ws_of_trim_fix _ htrim (data_ne_nil _ htne)
  constructor
  · intro hm
    rcases List.mem_append.mp hm with h | h
    · revert h; decide
    · exact htnl h
  · cases hE : endsWithL ("# ".data ++ t.title.data) ['\r'] with
    | false => rfl
    | true =>
      obtain ⟨ini2, hi2⟩ := (endsWithL_iff _ _).mp hE
      have h1 : ("# ".data ++ t.title.data).getLast? = some '\r' := by
        rw [← hi2]; exact List.getLast?_concat _
      have h2 : ("# ".data ++ t.title.data).getLast? = some c := by
        rw [hl, ← List.append_assoc]; exact List.getLast?_concat _
      rw [h1] at h2
      injection h2 with h3
      rw [← h3] at hc
      cases hc

theorem splitNL_chars (l : List Char) :
    ∀ p ∈ splitNL l, ∀ c ∈ p, c ∈ l := by
  induction l with
  | nil =>
    intro p hp c hc
    rw [show splitNL [] = [[]] from rfl] at hp
    rcases List.mem_cons.mp hp with rfl | h
    · cases hc
    · cases h
  | cons a as ih =>
    intro p hp c hc
    simp only [splitNL] at hp
    by_cases ha : a = '\n'
    · rw [if_pos ha] at hp
      rcases List.mem_cons.mp hp with rfl | h
      · cases hc
      · exact List.mem_cons_of_mem _ (ih p h c hc)
    · rw [if_neg ha] at hp
      cases hs : splitNL as with
      | nil => exact absurd hs (splitNL_ne_nil as)
      | cons h t =>
        simp only [hs] at hp
        rcases List.mem_cons.mp hp with rfl | hmem
        · rcases List.mem_cons.mp hc with rfl | hc'
          · exact List.mem_cons_self _ _
          · exact List.mem_cons_of_mem _ (ih h (hs ▸ List.mem_cons_self _ _) c hc')
        · exact List.mem_cons_of_mem _ (ih p (hs ▸ List.mem_cons_of_mem _ hmem) c hc)

theorem goodL_body_piece (t : Ticket) (hbcr : '\r' ∉ t.body.data) :
    ∀ p ∈ bodyTailOf t, goodL p := by
  intro p hp
  unfold bodyTailOf at hp
  split at hp
  · cases hp
  · rcases List.mem_cons.mp hp with rfl | hp'
    · exact ⟨by simp, by decide⟩
    · refine goodL_of_not_mem _ (mem_splitNL_no_newline _ _ hp') ?_
      intro hm
      exact hbcr (splitNL_chars _ p hp' '\r' hm)

theorem allLines_good (t : Ticket)
    (hid : safeStr t.id = true) (hst : safeStr t.status = true)
    (hty : safeStr t.type = true)
    (hdeps : ∀ s ∈ t.deps, safeStr s = true)
    (hlinks : ∀ s ∈ t.links, safeStr s = true)
    (has : safeStr t.assignee = true) (hex : safeStr t.externalRef = true)
    (hpar : safeStr t.parent = true)
    (htne : t.title ≠ "") (htnl : '\n' ∉ t.title.data)
    (htrim : trimWS t.title.data = t.title.data)
    (hbcr : '\r' ∉ t.body.data) :
    ∀ l ∈ allLinesOf t, goodL l := by
  intro l hl
  unfold allLinesOf at hl
  rcases List.mem_cons.mp hl with rfl | hl
  · exact ⟨by decide, by decide⟩
  rcases List.mem_append.mp hl with hl | hl
  · unfold fmLinesOf at hl
    simp only [List.mem_append, List.mem_cons, List.not_mem_nil, or_false,
      or_assoc] at hl
    rcases hl with rfl|rfl|rfl|rfl|rfl|rfl|rfl|h|h|h
    · exact goodL_key_safe _ _ (by decide) (by decide) hid
    · exact goodL_key_safe _ _ (by decide) (by decide) hst
    · exact goodL_key_arr _ _ (by decide) (by decide) hdeps
    · exact goodL_key_arr _ _ (by decide) (by decide) hlinks
    · exact goodL_key_time _ _ (by decide) (by decide)
    · exact goodL_key_safe _ _ (by decide) (by decide) hty
    · exact goodL_key_int _ _ (by decide) (by decide)
    · split at h
      · rcases List.mem_cons.mp h with rfl | h'
        · exact goodL_key_safe _ _ (by decide) (by decide) has
        · cases h'
      · cases h
    · split at h
      · rcases List.mem_cons.mp h with rfl | h'
        · exact goodL_key_safe _ _ (by decide) (by decide) hex
        · cases h'
      · cases h
    · split at h
      · rcases List.mem_cons.mp h with rfl | h'
        · exact goodL_key_safe _ _ (by decide) (by decide) hpar
        · cases h'
      · cases h
  · rcases List.mem_cons.mp hl with rfl | hl
    · exact ⟨by decide, by decide⟩
    · rcases List.mem_cons.mp hl with rfl | hl
      · exact goodL_title_line t htne htnl htrim
      · exact goodL_body_piece t hbcr l hl

/-! ### The parse/format round trip -/

theorem findTitle_fmt (t : Ticket) (htne : t.title ≠ "")
    (htrim : trimWS t.title.data = t.title.data) :
    findTitle (("# ".data ++ t.title.data) :: bodyTailOf t) 0
      = (t.title.data, 1) := by
  have htr : trimWS ("# ".data ++ t.title.data)
      = "# ".data ++ t.title.data := by
    obtain ⟨init, c, hl, hc⟩ :=
      getLast_not_ws_of_trim_fix _ htrim (data_ne_nil _ htne)
    refine trimWS_eq_self _ '#' (' ' :: t.title.data) ("# ".data ++ init) c
      rfl (by decide) ?_ hc
    rw [hl, ← List.append_assoc]
  simp only [findTitle]
  rw [htr, if_pos (leadsWith_append_self "# ".data t.title.data)]
  rfl

theorem joinNL_nil_cons (ps : List (List Char)) (hne : ps ≠ []) :
    joinNL ([] :: ps) = '\n' :: joinNL ps := by
  cases ps with
  | nil => exact absurd rfl hne
  | cons h ts => rfl

theorem parseGo_formatGo (t : Ticket) (h : wellFormed t = true) :
    parseGo (formatGo t) = some t := by
  simp only [wellFormed, Bool.and_eq_true, and_assoc] at h
  obtain ⟨hid, hst, hty, hdeps, hlinks, hdt, has, hex, hpar, htne, htnl,
    httrim, hbtrim, hbcr⟩ := h
  have htne' : t.title ≠ "" := by simpa using htne
  have htnl' : '\n' ∉ t.title.data := by
    intro hm
    have := List.all_eq_true.mp htnl '\n' hm
    simp at this
  have httrim' : trimWS t.title.data = t.title.data := by simpa using httrim
  have hbtrim' : trimWS t.body.data = t.body.data := by simpa using hbtrim
  have hbcr' : '\r' ∉ t.body.data := by
    intro hm
    have := List.all_eq_true.mp hbcr '\r' hm
    simp at this
  have hdeps' : ∀ s ∈ t.deps, safeStr s = true ∧ s ≠ "" := by
    intro s hs
    have := List.all_eq_true.mp hdeps s hs
    simp only [Bool.and_eq_true, Bool.not_eq_true', beq_eq_false_iff_ne]
      at this
    exact this
  have hlinks' : ∀ s ∈ t.links, safeStr s = true ∧ s ≠ "" := by
    intro s hs
    have := List.all_eq_true.mp hlinks s hs
    simp only [Bool.and_eq_true, Bool.not_eq_true', beq_eq_false_iff_ne]
      at this
    exact this
  have hb : t.body ≠ "" → endsWithL t.body.data ['\n'] = false := fun hne =>
    not_endsWith_nl_of_trim_fix _ hbtrim' (data_ne_nil _ hne)
  have hg := allLines_good t hid hst hty (fun s hs => (hdeps' s hs).1)
    (fun s hs => (hlinks' s hs).1) has hex hpar htne' htnl' httrim' hbcr'
  unfold parseGo formatGo
  rw [data_mk]
  unfold parseTicket
  rw [scanTicket_format t hb (fmLines_ne_delim t) hg]
  dsimp only
  rw [fmFold t (parseFlow_formatArray _ hdeps') (parseFlow_formatArray _ hlinks')]
  dsimp only [fmExpected, Option.getD]
  rw [data_mk, parseRFC3339_formatRFC3339 t.created hdt]
  dsimp only
  rw [findTitle_fmt t htne' httrim']
  dsimp only
  by_cases hbody : t.body = ""
  · rw [show bodyTailOf t = [] from by unfold bodyTailOf; rw [if_pos hbody]]
    rw [if_neg (by simp)]
    have hb0 : (String.mk [] : String) = t.body := by rw [hbody]
    rw [hb0]
  · rw [show bodyTailOf t = [] :: splitNL t.body.data from by
      unfold bodyTailOf; rw [if_neg hbody]]
    have hlen : 1 < ((['#', ' '] ++ t.title.data)
        :: [] :: splitNL t.body.data).length := by
      simp only [List.length_cons]
      omega
    rw [if_pos hlen, List.drop_one, List.tail_cons,
      joinNL_nil_cons _ (splitNL_ne_nil _), joinNL_splitNL,
      trimWS_newline_cons _ hbtrim' (data_ne_nil _ hbody)]

theorem statName_setFile_same (d : Dir) (n : String) (c : String) :
    statName (setFile d n c) n = true := by
  have h := findEntry_setFile_same d n c
  unfold findEntry at h
  unfold statName
  rw [List.any_eq_true]
  exact ⟨⟨n, false, c⟩, List.mem_of_find?_eq_some h, by simp⟩

/-- C5: round trip through the store.  For every well-formed ticket
(ID-like scalar fields, non-empty ID-like dep/link entries, in-range
timestamp, non-empty single-line trimmed title, `TrimSpace`-stable
carriage-return-free body), `Create` followed by `Get` on the full ID
returns a record equal to the ticket in every field; `deps`/`links` are
plain (possibly empty, never null) lists in the model, so empty and nil
collections coincide. -/
theorem storeCreate_storeGet_roundtrip (fs : FS) (t : Ticket)
    (h : wellFormed t = true) :
    (storeGet (storeCreate fs t) t.id).1 = .ok t := by
  unfold storeCreate storeGet resolveID
  dsimp only
  rw [if_pos (statName_setFile_same _ _ _)]
  dsimp only [Option.bind]
  rw [readFileF_setFile_same]
  dsimp only
  rw [parseGo_formatGo t h]

def c5WitTicket : Ticket :=
  { id := "tk-1a2b", status := "open", deps := ["tk-9z9z", "tk-8y8y"],
    links := ["ab/cd-1"], created := ⟨2025, 2, 28, 23, 59, 7⟩,
    type := "bug", priority := 2, assignee := "alice",
    externalRef := "gh-12", parent := "tk-0000",
    title := "A title", body := "line one\n\nline two" }

theorem storeCreate_storeGet_roundtrip_witness :
    wellFormed c5WitTicket = true ∧
    (storeGet (storeCreate none c5WitTicket) c5WitTicket.id).1
      = .ok c5WitTicket :=
  ⟨by decide, storeCreate_storeGet_roundtrip none c5WitTicket (by decide)⟩

def c5CexTicket : Ticket :=
  { id := "ab-1111", status := "open", deps := [], links := [],
    created := ⟨2024, 1, 2, 3, 4, 5⟩, type := "task", priority := 1,
    assignee := "", externalRef := "", parent := "", title := "T",
    body := " x" }

/-- C5 counterexample: for the ticket whose body is `" x"` (leading
space), `Create` followed by `Get` returns the body `"x"`: `Parse` trims
the body, so the record differs from the one created and the unrestricted
round-trip claim fails. -/
theorem storeCreate_storeGet_not_roundtrip :
    (storeGet (storeCreate none c5CexTicket) c5CexTicket.id).1
      = .ok { c5CexTicket with body := "x" } ∧
    ({ c5CexTicket with body := "x" } : Ticket) ≠ c5CexTicket := by
  constructor
  · have hg := allLines_good c5CexTicket (by decide) (by decide) (by decide)
      (by simp [c5CexTicket]) (by simp [c5CexTicket]) (by decide) (by decide)
      (by decide) (by decide) (by decide) (by decide) (by decide)
    have hparse : parseGo (formatGo c5CexTicket)
        = some { c5CexTicket with body := "x" } := by
      unfold parseGo formatGo
      rw [data_mk]
      unfold parseTicket
      rw [scanTicket_format c5CexTicket (fun _ => by decide)
        (fmLines_ne_delim _) hg]
      dsimp only
      rw [fmFold _ (parseFlow_formatArray _ (by simp [c5CexTicket]))
        (parseFlow_formatArray _ (by simp [c5CexTicket]))]
      dsimp only [fmExpected, Option.getD]
      rw [data_mk, parseRFC3339_formatRFC3339 _ (by decide)]
      dsimp only
      rw [findTitle_fmt _ (by decide) (by decide)]
      dsimp only
      rw [show bodyTailOf c5CexTicket = [] :: splitNL c5CexTicket.body.data
        from by unfold bodyTailOf; rw [if_neg (by decide)]]
      have hlen : 1 < ((['#', ' '] ++ c5CexTicket.title.data)
          :: [] :: splitNL c5CexTicket.body.data).length := by
        simp only [List.length_cons]
        omega
      rw [if_pos hlen, List.drop_one, List.tail_cons,
        joinNL_nil_cons _ (splitNL_ne_nil _), joinNL_splitNL,
        show trimWS ('\n' :: c5CexTicket.body.data) = "x".data by decide]
    unfold storeCreate storeGet resolveID
    dsimp only
    rw [if_pos (statName_setFile_same _ _ _)]
    dsimp only [Option.bind]
    rw [readFileF_setFile_same]
    dsimp only
    rw [hparse]
  · intro hcontra
    have hbody := congrArg Ticket.body hcontra
    exact absurd hbody (by decide)

/-! ## Dependency tree (deptree package)

`Build` converts the ticket map into nodes keyed by the map key (one node
per ticket, `MaxDepth` initialised to `-1`, `SubtreeDepth` to `0`), then
runs two iterative stack passes; `Render` prints the root line and walks
the tree recursively.  The ticket map is modelled as an association list,
the two mutable integer fields as separate association-list maps, the
stacks with the top at the head (Go pushes dependencies in reverse and
pops from the end, so the head-first model processes them in the same
order), and every loop takes explicit fuel and returns `none` when it
runs out; `fuel1`/`fuel2`/`renderFuel` below are concrete sufficient
amounts, and the termination claim is that the composition never returns
`none`. -/

/-- The cycle-check key `":" + id + ":"`. -/
def pathKey (id : String) : List Char := ':' :: id.data ++ [':']

/-- Node lookup `t.nodes[id]` (a node carries exactly the fields of its
ticket plus the two computed depths, kept in separate maps below). -/
def findT (g : List (String × Ticket)) (id : String) : Option Ticket :=
  (g.find? (fun p => p.1 == id)).map (·.2)

/-- Read `node.MaxDepth` (initialised to `-1` by `Build`). -/
def mdGet (md : List (String × Int)) (id : String) : Int :=
  ((md.find? (fun p => p.1 == id)).map (·.2)).getD (-1)

/-- Read `node.SubtreeDepth` (Go zero value `0` until computed). -/
def sdGet (sd : List (String × Int)) (id : String) : Int :=
  ((sd.find? (fun p => p.1 == id)).map (·.2)).getD 0

/-- In-place update of one node's depth field. -/
def mapSet (m : List (String × Int)) (id : String) (v : Int) :
    List (String × Int) :=
  m.map (fun p => if p.1 = id then (p.1, v) else p)

/-- A `computeMaxDepths` stack item. -/
structure MDItem where
  id : String
  depth : Int
  path : List Char

/-- The `computeMaxDepths` loop: pop, skip missing nodes and ancestors
already on the path, raise the recorded depth, push the non-empty
dependencies (in order: Go pushes them reversed and pops from the end). -/
def loop1 (g : List (String × Ticket)) :
    Nat → List MDItem → List (String × Int) → Option (List (String × Int))
  | 0, _, _ => none
  | _ + 1, [], md => some md
  | fuel + 1, item :: rest, md =>
    match findT g item.id with
    | none => loop1 g fuel rest md
    | some node =>
      if strContains item.path (pathKey item.id) then loop1 g fuel rest md
      else
        let md' := if mdGet md item.id < item.depth then
          mapSet md item.id item.depth else md
        let newPath := item.path ++ item.id.data ++ [':']
        let children := (node.deps.filter (fun d => !(d == ""))).map
          (fun dep => MDItem.mk dep (item.depth + 1) newPath)
        loop1 g fuel (children ++ rest) md'

/-- A `computeSubtreeDepths` stack item. -/
structure SDItem where
  id : String
  path : List Char
  phase : Nat

/-- The `computeSubtreeDepths` post-order loop: on the first visit the
top item flips to phase 1 and the not-yet-computed non-empty dependencies
are pushed above it; on the second visit the subtree depth is the maximum
of the node's own `MaxDepth` and the dependencies' recorded subtree
depths, and the node is marked computed. -/
def loop2 (g : List (String × Ticket)) (md : List (String × Int)) :
    Nat → List SDItem → List (String × Int) → List String →
      Option (List (String × Int))
  | 0, _, _, _ => none
  | _ + 1, [], sd, _ => some sd
  | fuel + 1, item :: rest, sd, computed =>
    match findT g item.id with
    | none => loop2 g md fuel rest sd computed
    | some node =>
      if strContains item.path (pathKey item.id) then
        loop2 g md fuel rest sd computed
      else if item.phase = 0 then
        let newPath := item.path ++ item.id.data ++ [':']
        let children := (node.deps.filter
            (fun d => !(d == "") && !(computed.contains d))).map
          (fun dep => SDItem.mk dep newPath 0)
        loop2 g md fuel (children ++ ⟨item.id, item.path, 1⟩ :: rest) sd
          computed
      else
        let maxSub := node.deps.foldl
          (fun acc dep =>
            match findT g dep with
            | some _ => if acc < sdGet sd dep then sdGet sd dep else acc
            | none => acc)
          (mdGet md item.id)
        loop2 g md fuel rest (mapSet sd item.id maxSub) (item.id :: computed)

/-- Insertion step of the children sort. -/
def insertKid (sd : List (String × Int)) (x : String) :
    List String → List String
  | [] => [x]
  | y :: ys =>
    if sdGet sd x < sdGet sd y
        || (sdGet sd x == sdGet sd y && lexLe x.data y.data) then
      x :: y :: ys
    else y :: insertKid sd x ys

/-- Model of `sort.Slice(children, ...)`: ascending by subtree depth,
ties by ID; the keys of distinct entries are distinct, so any correct
sort yields this result. -/
def sortKids (sd : List (String × Int)) (l : List String) : List String :=
  l.foldr (insertKid sd) []

/-- A pending `renderChildren` activity: expanding a node, or printing a
sorted children list in order. -/
inductive RTask where
  | node (id : String) (pfx : String) (path : List Char) (depth : Int)
  | kids (cs : List String) (pfx : String) (path : List Char) (depth : Int)

/-- Model of `renderChildren`: collect the printable children (non-empty,
present, not an ancestor on the path, and in default mode neither printed
nor away from their maximum depth), sort them, then print each with its
connector and recurse with the extended prefix and path.  Fuel-limited;
`none` models non-termination and is proven unreachable below. -/
def renderF (g : List (String × Ticket)) (md sd : List (String × Int))
    (full : Bool) :
    Nat → RTask → List String → Option (List String × List String)
  | 0, _, _ => none
  | fuel + 1, .node id pfx path depth, printed =>
    match findT g id with
    | none => some ([], printed)
    | some node =>
      let children := node.deps.filter (fun dep =>
        !(dep == "") && (findT g dep).isSome
          && !(strContains path (pathKey dep))
          && (full || (!(printed.contains dep)
            && (mdGet md dep == depth + 1))))
      renderF g md sd full fuel (.kids (sortKids sd children) pfx path depth)
        printed
  | _ + 1, .kids [] _ _ _, printed => some ([], printed)
  | fuel + 1, .kids (c :: cs) pfx path depth, printed =>
    match findT g c with
    | none => none
    | some cnode =>
      let conn := if cs = [] then "└── " else "├── "
      let line := pfx ++ conn ++ c ++ " [" ++ cnode.status ++ "] "
        ++ cnode.title
      let printed1 := if full then printed else c :: printed
      let newPfx := pfx ++ (if cs = [] then "    " else "│   ")
      match renderF g md sd full fuel
          (.node c newPfx (path ++ c.data ++ [':']) (depth + 1)) printed1 with
      | none => none
      | some (sub, printed2) =>
        match renderF g md sd full fuel (.kids cs pfx path depth)
            printed2 with
        | none => none
        | some (rest, printed3) => some (line :: (sub ++ rest), printed3)

/-- The number of stored IDs whose cycle key is not yet on the path: the
traversal-depth budget that the ancestor-path check enforces. -/
def capacity (g : List (String × Ticket)) (path : List Char) : Nat :=
  ((g.map Prod.fst).filter (fun k => !(strContains path (pathKey k)))).length

/-- The largest dependency-list length of any node. -/
def maxDeps (g : List (String × Ticket)) : Nat :=
  g.foldl (fun acc p => max acc p.2.deps.length) 0

/-- `Build` starts every `MaxDepth` at `-1`. -/
def mdInit (g : List (String × Ticket)) : List (String × Int) :=
  g.map (fun p => (p.1, (-1 : Int)))

/-- `SubtreeDepth` starts at the Go zero value `0`. -/
def sdInit (g : List (String × Ticket)) : List (String × Int) :=
  g.map (fun p => (p.1, (0 : Int)))

/-- A sufficient iteration budget for `computeMaxDepths`. -/
def fuel1 (g : List (String × Ticket)) : Nat :=
  (maxDeps g + 1) ^ capacity g [':'] + 1

/-- The `computeMaxDepths` pass of `Build`. -/
def buildMD (g : List (String × Ticket)) (root : String) :
    Option (List (String × Int)) :=
  loop1 g (fuel1 g) [⟨root, 0, [':']⟩] (mdInit g)

/-- A sufficient iteration budget for `computeSubtreeDepths`. -/
def fuel2 (g : List (String × Ticket)) : Nat :=
  2 * (2 * maxDeps g + 2) ^ capacity g [':'] + 1

/-- The `computeSubtreeDepths` pass of `Build`. -/
def buildSD (g : List (String × Ticket)) (md : List (String × Int))
    (root : String) : Option (List (String × Int)) :=
  loop2 g md (fuel2 g) [⟨root, [':'], 0⟩] (sdInit g) []

/-- Model of `renderChildren`: collect the printable children (non-empty,
present, not an ancestor on the path, and in default mode neither printed
nor away from their maximum depth), sort them, then print each with its
connector and recurse with the extended prefix and path.  Fuel-limited;
`none` models non-termination and is proven unreachable below. -/
def renderFuel (g : List (String × Ticket)) (path : List Char) : Nat :=
  2 + capacity g path * (maxDeps g + 2)

/-- Model of `Tree.Render`: nothing for a missing root, otherwise the
root line (built from the map key and the ticket's status and title)
followed by the rendered children; the root is marked printed first. -/
def renderGo (g : List (String × Ticket)) (md sd : List (String × Int))
    (full : Bool) (root : String) : Option (List String) :=
  match findT g root with
  | none => some []
  | some node =>
    match renderF g md sd full (renderFuel g (pathKey root))
        (.node root "" (pathKey root) 0) [root] with
    | none => none
    | some (lines, _) =>
      some ((root ++ " [" ++ node.status ++ "] " ++ node.title) :: lines)

/-- `deptree.Build` followed by `Tree.Render`: the full pipeline, `none`
if any loop exhausts its (sufficient) fuel. -/
def deptreeGo (tickets : List (String × Ticket)) (root : String)
    (full : Bool) : Option (List String) :=
  match buildMD tickets root with
  | none => none
  | some md =>
    match buildSD tickets md root with
    | none => none
    | some sd => renderGo tickets md sd full root

/-- The deptree tests' `createTestTicket`. -/
def mkT (id title : String) (deps : List String) : Ticket :=
  { id := id, status := "open", deps := deps, links := [],
    created := zeroTime, type := "task", priority := 0, assignee := "",
    externalRef := "", parent := "", title := title, body := "" }

/-- The `TestDiamondDependency` ticket map: D depends on B and C, which
both depend on A. -/
def gDiamond : List (String × Ticket) :=
  [("a-1111", mkT "a-1111" "Ticket A" []),
   ("b-2222", mkT "b-2222" "Ticket B" ["a-1111"]),
   ("c-3333", mkT "c-3333" "Ticket C" ["a-1111"]),
   ("d-4444", mkT "d-4444" "Ticket D" ["b-2222", "c-3333"])]

/-- The `TestMaxDepthComputation` ticket map: A is reachable from D at
depths 1 (directly) and 3 (via C and B) and no deeper. -/
def gMax : List (String × Ticket) :=
  [("a-1111", mkT "a-1111" "Ticket A" []),
   ("b-2222", mkT "b-2222" "Ticket B" ["a-1111"]),
   ("c-3333", mkT "c-3333" "Ticket C" ["b-2222"]),
   ("d-4444", mkT "d-4444" "Ticket D" ["a-1111", "c-3333"])]


theorem strContains_iff (s sub : List Char) :
    strContains s sub = true ↔ sub <:+: s := by
  induction s with
  | nil =>
    unfold strContains
    rw [leadsWith_iff, List.infix_nil, List.prefix_nil]
  | cons c rest ih =>
    unfold strContains
    rw [Bool.or_eq_true, leadsWith_iff, ih, List.infix_cons_iff]

theorem strContains_append (s u sub : List Char)
    (h : strContains s sub = true) : strContains (s ++ u) sub = true := by
  rw [strContains_iff] at h ⊢
  exact h.trans (List.prefix_append s u).isInfix

theorem strContains_newPath (path : List Char) (id : String)
    (hend : endsWithL path [':'] = true) :
    strContains (path ++ id.data ++ [':']) (pathKey id) = true := by
  obtain ⟨q, hq⟩ := (endsWithL_iff _ _).mp hend
  rw [strContains_iff]
  refine ⟨q, [], ?_⟩
  rw [List.append_nil]
  unfold pathKey
  rw [List.append_assoc, ← hq]
  simp

theorem filter_length_le {α : Type} (l : List α) (p q : α → Bool)
    (himp : ∀ x, q x = true → p x = true) :
    (l.filter q).length ≤ (l.filter p).length := by
  induction l with
  | nil => simp
  | cons a as ih =>
    simp only [List.filter_cons]
    cases hq : q a with
    | true =>
      rw [himp a hq]
      simpa using ih
    | false =>
      cases hp : p a with
      | true =>
        simp only [List.length_cons]
        exact Nat.le_succ_of_le ih
      | false => simpa using ih

theorem filter_length_lt {α : Type} (l : List α) (p q : α → Bool)
    (himp : ∀ x, q x = true → p x = true) (x : α) (hx : x ∈ l)
    (hpx : p x = true) (hqx : q x = false) :
    (l.filter q).length < (l.filter p).length := by
  induction l with
  | nil => cases hx
  | cons a as ih =>
    simp only [List.filter_cons]
    rcases List.mem_cons.mp hx with rfl | hxs
    · rw [hqx, hpx]
      simp only [List.length_cons]
      exact Nat.lt_succ_of_le (filter_length_le as p q himp)
    · cases hq : q a with
      | true =>
        rw [himp a hq]
        simp only [List.length_cons]
        exact Nat.succ_lt_succ (ih hxs)
      | false =>
        cases hp : p a with
        | true =>
          simp only [List.length_cons]
          exact Nat.lt_succ_of_lt (ih hxs)
        | false => exact ih hxs

theorem capacity_lt (g : List (String × Ticket)) (path : List Char)
    (id : String) (hend : endsWithL path [':'] = true)
    (hmem : id ∈ g.map Prod.fst)
    (hnc : strContains path (pathKey id) = false) :
    capacity g (path ++ id.data ++ [':']) < capacity g path := by
  unfold capacity
  refine filter_length_lt _ _ _ ?_ id hmem ?_ ?_
  · intro k hk
    rw [Bool.not_eq_true'] at hk ⊢
    cases hc : strContains path (pathKey k) with
    | false => rfl
    | true =>
      have h2 := strContains_append path (id.data ++ [':']) (pathKey k) hc
      rw [← List.append_assoc] at h2
      rw [h2] at hk
      cases hk
  · rw [Bool.not_eq_true', hnc]
  · rw [Bool.not_eq_false']
    exact strContains_newPath path id hend

theorem capacity_pos (g : List (String × Ticket)) (path : List Char)
    (id : String) (hmem : id ∈ g.map Prod.fst)
    (hnc : strContains path (pathKey id) = false) :
    1 ≤ capacity g path := by
  unfold capacity
  have hm : id ∈ (g.map Prod.fst).filter
      (fun k => !(strContains path (pathKey k))) :=
    List.mem_filter.mpr ⟨hmem, by rw [hnc]; rfl⟩
  exact List.length_pos.mpr (List.ne_nil_of_mem hm)

theorem findT_mem_keys (g : List (String × Ticket)) (id : String)
    (t : Ticket) (h : findT g id = some t) : id ∈ g.map Prod.fst := by
  unfold findT at h
  cases hf : g.find? (fun p => p.1 == id) with
  | none => rw [hf] at h; cases h
  | some pr =>
    have hm := List.mem_of_find?_eq_some hf
    have hp := List.find?_some hf
    have : pr.1 = id := by simpa using hp
    exact List.mem_map.mpr ⟨pr, hm, this⟩

theorem foldl_max_ge_init (l : List (String × Ticket)) (init : Nat) :
    init ≤ l.foldl (fun acc p => max acc p.2.deps.length) init := by
  induction l generalizing init with
  | nil => simp
  | cons a as ih => exact le_trans (Nat.le_max_left _ _) (ih _)

theorem foldl_max_mem (l : List (String × Ticket)) :
    ∀ pr ∈ l, ∀ init : Nat,
      pr.2.deps.length ≤ l.foldl (fun acc p => max acc p.2.deps.length)
        init := by
  intro pr hpr
  induction l with
  | nil => cases hpr
  | cons a as ih =>
    intro init
    rcases List.mem_cons.mp hpr with rfl | hm
    · exact le_trans (Nat.le_max_right _ _) (foldl_max_ge_init as _)
    · exact ih hm _

theorem findT_deps_le (g : List (String × Ticket)) (id : String)
    (t : Ticket) (h : findT g id = some t) : t.deps.length ≤ maxDeps g := by
  unfold findT at h
  cases hf : g.find? (fun p => p.1 == id) with
  | none => rw [hf] at h; cases h
  | some pr =>
    have hm := List.mem_of_find?_eq_some hf
    rw [hf] at h
    have hpt : pr.2 = t := by simpa using h
    rw [← hpt]
    exact foldl_max_mem g pr hm 0

theorem sum_map_const {α : Type} (l : List α) (c : Nat) :
    (l.map (fun _ => c)).sum = l.length * c := by
  induction l with
  | nil => simp
  | cons a as ih => simp [ih, Nat.succ_mul, Nat.add_comm]

/-- Termination measure for `loop1`. -/
def phi1 (g : List (String × Ticket)) (stack : List MDItem) : Nat :=
  (stack.map (fun it => (maxDeps g + 1) ^ capacity g it.path)).sum

/-- Stack invariant for `loop1`: every path ends with a colon. -/
def pathsOK1 (stack : List MDItem) : Prop :=
  ∀ it ∈ stack, endsWithL it.path [':'] = true

theorem phi1_cons (g : List (String × Ticket)) (it : MDItem)
    (rest : List MDItem) :
    phi1 g (it :: rest)
      = (maxDeps g + 1) ^ capacity g it.path + phi1 g rest := by
  unfold phi1
  simp

theorem phi1_append (g : List (String × Ticket)) (s₁ s₂ : List MDItem) :
    phi1 g (s₁ ++ s₂) = phi1 g s₁ + phi1 g s₂ := by
  unfold phi1
  simp

theorem loop1_isSome (g : List (String × Ticket)) :
    ∀ fuel stack md, pathsOK1 stack → phi1 g stack < fuel →
      (loop1 g fuel stack md).isSome = true := by
  intro fuel
  induction fuel with
  | zero => exact fun stack md _ h => absurd h (Nat.not_lt_zero _)
  | succ fuel ih =>
    intro stack md hOK hphi
    cases stack with
    | nil => rfl
    | cons it rest =>
      have hrest : pathsOK1 rest := fun x hx => hOK x (List.mem_cons_of_mem _ hx)
      rw [phi1_cons] at hphi
      have hpow : 1 ≤ (maxDeps g + 1) ^ capacity g it.path :=
        Nat.one_le_pow _ _ (by omega)
      simp only [loop1]
      cases hfind : findT g it.id with
      | none => exact ih rest md hrest (by omega)
      | some node =>
        dsimp only
        cases hcyc : strContains it.path (pathKey it.id) with
        | true =>
          rw [if_pos rfl]
          exact ih rest md hrest (by omega)
        | false =>
          rw [if_neg Bool.false_ne_true]
          apply ih
          · intro x hx
            rcases List.mem_append.mp hx with hx | hx
            · obtain ⟨dep, _, rfl⟩ := List.mem_map.mp hx
              exact endsWithL_concat _ _
            · exact hrest x hx
          · rw [phi1_append]
            have hkeys := findT_mem_keys g it.id node hfind
            have hcap1 : 1 ≤ capacity g it.path :=
              capacity_pos g it.path it.id hkeys hcyc
            have hcaplt :
                capacity g (it.path ++ it.id.data ++ [':'])
                  < capacity g it.path :=
              capacity_lt g it.path it.id
                (hOK it (List.mem_cons_self _ _)) hkeys hcyc
            have hchlen :
                ((node.deps.filter (fun d => !(d == ""))).map
                  (fun dep => MDItem.mk dep (it.depth + 1)
                    (it.path ++ it.id.data ++ [':']))).length
                  ≤ maxDeps g := by
              rw [List.length_map]
              exact le_trans (List.length_filter_le _ _)
                (findT_deps_le g it.id node hfind)
            have hphich : phi1 g
                ((node.deps.filter (fun d => !(d == ""))).map
                  (fun dep => MDItem.mk dep (it.depth + 1)
                    (it.path ++ it.id.data ++ [':'])))
                = ((node.deps.filter (fun d => !(d == ""))).map
                  (fun dep => MDItem.mk dep (it.depth + 1)
                    (it.path ++ it.id.data ++ [':']))).length
                  * (maxDeps g + 1)
                    ^ capacity g (it.path ++ it.id.data ++ [':']) := by
              unfold phi1
              rw [List.map_map]
              rw [show ((fun it => (maxDeps g + 1) ^ capacity g it.path) ∘
                  fun dep => MDItem.mk dep (it.depth + 1)
                    (it.path ++ it.id.data ++ [':']))
                = fun _ => (maxDeps g + 1)
                    ^ capacity g (it.path ++ it.id.data ++ [':'])
                from rfl]
              rw [sum_map_const, List.length_map]
            rw [hphich]
            have hpowle : (maxDeps g + 1)
                ^ capacity g (it.path ++ it.id.data ++ [':'])
                ≤ (maxDeps g + 1) ^ (capacity g it.path - 1) :=
              Nat.pow_le_pow_right (by omega) (by omega)
            have hprod : ((node.deps.filter (fun d => !(d == ""))).map
                  (fun dep => MDItem.mk dep (it.depth + 1)
                    (it.path ++ it.id.data ++ [':']))).length
                  * (maxDeps g + 1)
                    ^ capacity g (it.path ++ it.id.data ++ [':'])
                < (maxDeps g + 1) ^ capacity g it.path := by
              calc _ ≤ maxDeps g * (maxDeps g + 1) ^ (capacity g it.path - 1) :=
                    Nat.mul_le_mul hchlen hpowle
                _ < (maxDeps g + 1) * (maxDeps g + 1) ^ (capacity g it.path - 1) :=
                    (Nat.mul_lt_mul_right (Nat.one_le_pow _ _ (by omega))).mpr
                      (by omega)
                _ = (maxDeps g + 1) ^ capacity g it.path := by
                    rw [← Nat.pow_succ']
                    congr 1
                    omega
            exact Nat.lt_of_lt_of_le
              (Nat.add_lt_add_right hprod (phi1 g rest)) (by omega)

/-- Termination measure for `loop2`. -/
def phi2 (g : List (String × Ticket)) (stack : List SDItem) : Nat :=
  (stack.map (fun it =>
    (if it.phase = 0 then 2 else 1)
      * (2 * maxDeps g + 2) ^ capacity g it.path)).sum

/-- Stack invariant for `loop2`. -/
def pathsOK2 (stack : List SDItem) : Prop :=
  ∀ it ∈ stack, endsWithL it.path [':'] = true

theorem phi2_cons (g : List (String × Ticket)) (it : SDItem)
    (rest : List SDItem) :
    phi2 g (it :: rest)
      = (if it.phase = 0 then 2 else 1)
          * (2 * maxDeps g + 2) ^ capacity g it.path + phi2 g rest := by
  unfold phi2
  simp

theorem phi2_append (g : List (String × Ticket)) (s₁ s₂ : List SDItem) :
    phi2 g (s₁ ++ s₂) = phi2 g s₁ + phi2 g s₂ := by
  unfold phi2
  simp

theorem loop2_isSome (g : List (String × Ticket)) (md : List (String × Int)) :
    ∀ fuel stack sd computed, pathsOK2 stack → phi2 g stack < fuel →
      (loop2 g md fuel stack sd computed).isSome = true := by
  intro fuel
  induction fuel with
  | zero => exact fun stack sd computed _ h => absurd h (Nat.not_lt_zero _)
  | succ fuel ih =>
    intro stack sd computed hOK hphi
    cases stack with
    | nil => rfl
    | cons it rest =>
      have hrest : pathsOK2 rest := fun x hx => hOK x (List.mem_cons_of_mem _ hx)
      rw [phi2_cons] at hphi
      have hpow : 1 ≤ (2 * maxDeps g + 2) ^ capacity g it.path :=
        Nat.one_le_pow _ _ (by omega)
      have hw : 1 ≤ (if it.phase = 0 then 2 else 1)
          * (2 * maxDeps g + 2) ^ capacity g it.path := by
        split <;> omega
      simp only [loop2]
      cases hfind : findT g it.id with
      | none => exact ih rest sd computed hrest (by omega)
      | some node =>
        dsimp only
        cases hcyc : strContains it.path (pathKey it.id) with
        | true =>
          rw [if_pos rfl]
          exact ih rest sd computed hrest (by omega)
        | false =>
          rw [if_neg Bool.false_ne_true]
          by_cases hph : it.phase = 0
          · rw [if_pos hph]
            apply ih
            · intro x hx
              rcases List.mem_append.mp hx with hx | hx
              · obtain ⟨dep, _, rfl⟩ := List.mem_map.mp hx
                exact endsWithL_concat _ _
              · rcases List.mem_cons.mp hx with rfl | hx
                · exact hOK it (List.mem_cons_self _ _)
                · exact hrest x hx
            · rw [phi2_append, phi2_cons]
              rw [hph, if_pos rfl] at hphi
              have hkeys := findT_mem_keys g it.id node hfind
              have hcap1 : 1 ≤ capacity g it.path :=
                capacity_pos g it.path it.id hkeys hcyc
              have hcaplt :
                  capacity g (it.path ++ it.id.data ++ [':'])
                    < capacity g it.path :=
                capacity_lt g it.path it.id
                  (hOK it (List.mem_cons_self _ _)) hkeys hcyc
              have hchlen :
                  ((node.deps.filter
                      (fun d => !(d == "") && !(computed.contains d))).map
                    (fun dep => SDItem.mk dep
                      (it.path ++ it.id.data ++ [':']) 0)).length
                    ≤ maxDeps g := by
                rw [List.length_map]
                exact le_trans (List.length_filter_le _ _)
                  (findT_deps_le g it.id node hfind)
              have hphich : phi2 g
                  ((node.deps.filter
                      (fun d => !(d == "") && !(computed.contains d))).map
                    (fun dep => SDItem.mk dep
                      (it.path ++ it.id.data ++ [':']) 0))
                  = ((node.deps.filter
                      (fun d => !(d == "") && !(computed.contains d))).map
                    (fun dep => SDItem.mk dep
                      (it.path ++ it.id.data ++ [':']) 0)).length
                    * (2 * (2 * maxDeps g + 2)
                      ^ capacity g (it.path ++ it.id.data ++ [':'])) := by
                unfold phi2
                rw [List.map_map]
                rw [show ((fun it =>
                      (if it.phase = 0 then 2 else 1)
                        * (2 * maxDeps g + 2) ^ capacity g it.path) ∘
                    fun dep => SDItem.mk dep
                      (it.path ++ it.id.data ++ [':']) 0)
                  = fun _ => 2 * (2 * maxDeps g + 2)
                      ^ capacity g (it.path ++ it.id.data ++ [':'])
                  from rfl]
                rw [sum_map_const, List.length_map]
              rw [hphich]
              have hpowle : (2 * maxDeps g + 2)
                  ^ capacity g (it.path ++ it.id.data ++ [':'])
                  ≤ (2 * maxDeps g + 2) ^ (capacity g it.path - 1) :=
                Nat.pow_le_pow_right (by omega) (by omega)
              have hprod : ((node.deps.filter
                      (fun d => !(d == "") && !(computed.contains d))).map
                    (fun dep => SDItem.mk dep
                      (it.path ++ it.id.data ++ [':']) 0)).length
                    * (2 * (2 * maxDeps g + 2)
                      ^ capacity g (it.path ++ it.id.data ++ [':']))
                    + (2 * maxDeps g + 2) ^ capacity g it.path
                  < 2 * (2 * maxDeps g + 2) ^ capacity g it.path := by
                have h1 : ((node.deps.filter
                      (fun d => !(d == "") && !(computed.contains d))).map
                    (fun dep => SDItem.mk dep
                      (it.path ++ it.id.data ++ [':']) 0)).length
                    * (2 * (2 * maxDeps g + 2)
                      ^ capacity g (it.path ++ it.id.data ++ [':']))
                    < (2 * maxDeps g + 2) ^ capacity g it.path := by
                  calc _ ≤ maxDeps g * (2 * (2 * maxDeps g + 2)
                        ^ (capacity g it.path - 1)) :=
                        Nat.mul_le_mul hchlen (by omega)
                    _ = (2 * maxDeps g) * (2 * maxDeps g + 2)
                        ^ (capacity g it.path - 1) := by ring
                    _ < (2 * maxDeps g + 2) * (2 * maxDeps g + 2)
                        ^ (capacity g it.path - 1) :=
                        (Nat.mul_lt_mul_right
                          (Nat.one_le_pow _ _ (by omega))).mpr (by omega)
                    _ = (2 * maxDeps g + 2) ^ capacity g it.path := by
                        rw [← Nat.pow_succ']
                        congr 1
                        omega
                omega
              have hfin : (if (1 : Nat) = 0 then 2 else 1)
                  * (2 * maxDeps g + 2) ^ capacity g it.path
                  = (2 * maxDeps g + 2) ^ capacity g it.path := by
                rw [if_neg (by omega), Nat.one_mul]
              rw [hfin]
              omega
          · rw [if_neg hph]
            rw [if_neg hph] at hphi
            exact ih rest _ _ hrest (by omega)

theorem mem_insertKid (sd : List (String × Int)) (x y : String)
    (l : List String) (h : y ∈ insertKid sd x l) : y = x ∨ y ∈ l := by
  induction l with
  | nil =>
    unfold insertKid at h
    rcases List.mem_cons.mp h with rfl | h
    · exact Or.inl rfl
    · cases h
  | cons a as ih =>
    unfold insertKid at h
    split at h
    · rcases List.mem_cons.mp h with rfl | h
      · exact Or.inl rfl
      · exact Or.inr h
    · rcases List.mem_cons.mp h with rfl | h
      · exact Or.inr (List.mem_cons_self _ _)
      · rcases ih h with h | h
        · exact Or.inl h
        · exact Or.inr (List.mem_cons_of_mem _ h)

theorem length_insertKid (sd : List (String × Int)) (x : String)
    (l : List String) : (insertKid sd x l).length = l.length + 1 := by
  induction l with
  | nil => rfl
  | cons a as ih =>
    unfold insertKid
    split
    · rfl
    · simp only [List.length_cons, ih]

theorem mem_sortKids (sd : List (String × Int)) (l : List String)
    (x : String) (h : x ∈ sortKids sd l) : x ∈ l := by
  induction l with
  | nil => cases h
  | cons a as ih =>
    unfold sortKids at h
    rw [List.foldr_cons] at h
    rcases mem_insertKid sd a x _ h with rfl | h
    · exact List.mem_cons_self _ _
    · exact List.mem_cons_of_mem _ (ih h)

theorem length_sortKids (sd : List (String × Int)) (l : List String) :
    (sortKids sd l).length = l.length := by
  induction l with
  | nil => rfl
  | cons a as ih =>
    unfold sortKids
    rw [List.foldr_cons, length_insertKid]
    unfold sortKids at ih
    rw [ih]
    rfl

/-- `renderF` invariant: the path ends with a colon and pending children
are present and off the path. -/
def taskOK (g : List (String × Ticket)) : RTask → Prop
  | .node _ _ path _ => endsWithL path [':'] = true
  | .kids cs _ path _ => endsWithL path [':'] = true ∧
      ∀ c ∈ cs, (findT g c).isSome = true
        ∧ strContains path (pathKey c) = false

/-- Fuel demand of a `renderF` activity. -/
def fuelFor (g : List (String × Ticket)) : RTask → Nat
  | .node _ _ path _ => 2 + capacity g path * (maxDeps g + 2)
  | .kids cs _ path _ =>
    1 + cs.length +
      (match cs with
       | [] => 0
       | _ :: _ => 2 + (capacity g path - 1) * (maxDeps g + 2))

theorem renderF_isSome (g : List (String × Ticket))
    (md sd : List (String × Int)) (full : Bool) :
    ∀ fuel task printed, taskOK g task → fuelFor g task ≤ fuel →
      (renderF g md sd full fuel task printed).isSome = true := by
  intro fuel
  induction fuel with
  | zero =>
    intro task printed _ hf
    exact absurd hf (by cases task <;> simp [fuelFor])
  | succ fuel ih =>
    intro task printed hOK hf
    cases task with
    | node id pfx path depth =>
      simp only [renderF]
      cases hfind : findT g id with
      | none => rfl
      | some node =>
        dsimp only
        set children := node.deps.filter (fun dep =>
          !(dep == "") && (findT g dep).isSome
            && !(strContains path (pathKey dep))
            && (full || (!(printed.contains dep)
              && (mdGet md dep == depth + 1)))) with hch
        have hmemprop : ∀ c ∈ sortKids sd children,
            (findT g c).isSome = true
              ∧ strContains path (pathKey c) = false := by
          intro c hc
          have hcf := mem_sortKids sd children c hc
          rw [hch] at hcf
          obtain ⟨_, hcond⟩ := List.mem_filter.mp hcf
          simp only [Bool.and_eq_true] at hcond
          refine ⟨hcond.1.1.2, ?_⟩
          have := hcond.1.2
          rwa [Bool.not_eq_true'] at this
        apply ih
        · exact ⟨hOK, hmemprop⟩
        · have hlen : (sortKids sd children).length ≤ maxDeps g := by
            rw [length_sortKids, hch]
            exact le_trans (List.length_filter_le _ _)
              (findT_deps_le g id node hfind)
          cases hsk : sortKids sd children with
          | nil =>
            simp only [fuelFor, hsk, List.length_nil]
            simp only [fuelFor] at hf
            omega
          | cons c cs =>
            have hc := hmemprop c (by rw [hsk]; exact List.mem_cons_self _ _)
            obtain ⟨t, ht⟩ := Option.isSome_iff_exists.mp hc.1
            have hcap1 : 1 ≤ capacity g path :=
              capacity_pos g path c (findT_mem_keys g c t ht) hc.2
            simp only [hsk, fuelFor]
            simp only [fuelFor] at hf
            have hlen2 : (c :: cs).length ≤ maxDeps g := by
              rw [← hsk]
              exact hlen
            have hmul : capacity g path * (maxDeps g + 2)
                = (capacity g path - 1) * (maxDeps g + 2)
                  + (maxDeps g + 2) := by
              conv_lhs => rw [show capacity g path
                = (capacity g path - 1) + 1 from by omega]
              rw [Nat.succ_mul]
            omega
    | kids cs pfx path depth =>
      cases cs with
      | nil => rfl
      | cons c cs =>
        simp only [renderF]
        have hc := hOK.2 c (List.mem_cons_self _ _)
        obtain ⟨cnode, hcn⟩ := Option.isSome_iff_exists.mp hc.1
        rw [hcn]
        dsimp only
        have hcap1 : 1 ≤ capacity g path :=
          capacity_pos g path c (findT_mem_keys g c cnode hcn) hc.2
        have hcaplt : capacity g (path ++ c.data ++ [':'])
            < capacity g path :=
          capacity_lt g path c hOK.1 (findT_mem_keys g c cnode hcn) hc.2
        have hmul2 : capacity g (path ++ c.data ++ [':']) * (maxDeps g + 2)
            ≤ (capacity g path - 1) * (maxDeps g + 2) :=
          Nat.mul_le_mul_right _ (by omega)
        simp only [fuelFor] at hf
        have hsub1 : (renderF g md sd full fuel
            (.node c (pfx ++ (if cs = [] then "    " else "│   "))
              (path ++ c.data ++ [':']) (depth + 1))
            (if full then printed else c :: printed)).isSome = true := by
          apply ih
          · exact endsWithL_concat _ _
          · simp only [fuelFor]
            omega
        obtain ⟨⟨sub, printed2⟩, hs1⟩ := Option.isSome_iff_exists.mp hsub1
        rw [hs1]
        dsimp only
        have hsub2 : (renderF g md sd full fuel
            (.kids cs pfx path depth) printed2).isSome = true := by
          apply ih
          · exact ⟨hOK.1, fun x hx => hOK.2 x (List.mem_cons_of_mem _ hx)⟩
          · cases cs with
            | nil =>
              simp only [fuelFor, List.length_nil, List.length_cons] at hf ⊢
              omega
            | cons c2 cs2 =>
              simp only [fuelFor, List.length_cons] at hf ⊢
              omega
        obtain ⟨⟨rest, printed3⟩, hs2⟩ := Option.isSome_iff_exists.mp hsub2
        rw [hs2]
        rfl


/-- C8: termination.  For every finite ticket map, root ID and mode --
including maps whose dependency edges form cycles -- both builder passes
and the render finish within the stated fuel (the pipeline never returns
`none`): every push extends the traversal path with a stored ID that the
ancestor-path check has just ruled out, so the capacity measure strictly
decreases along each path. -/
theorem deptree_terminates (tickets : List (String × Ticket))
    (root : String) (full : Bool) :
    (deptreeGo tickets root full).isSome = true := by
  unfold deptreeGo buildMD buildSD
  have hok1 : pathsOK1 [⟨root, 0, [':']⟩] := by
    intro it hit
    rcases List.mem_cons.mp hit with rfl | h
    · show endsWithL [':'] [':'] = true
      rfl
    · cases h
  have hphi1 : phi1 tickets [⟨root, 0, [':']⟩] < fuel1 tickets := by
    unfold phi1 fuel1
    simp
  have h1 := loop1_isSome tickets (fuel1 tickets) [⟨root, 0, [':']⟩]
    (mdInit tickets) hok1 hphi1
  obtain ⟨md, hmd⟩ := Option.isSome_iff_exists.mp h1
  rw [hmd]
  dsimp only
  have hok2 : pathsOK2 [⟨root, [':'], 0⟩] := by
    intro it hit
    rcases List.mem_cons.mp hit with rfl | h
    · show endsWithL [':'] [':'] = true
      rfl
    · cases h
  have hphi2 : phi2 tickets [⟨root, [':'], 0⟩] < fuel2 tickets := by
    unfold phi2 fuel2
    simp
  have h2 := loop2_isSome tickets md (fuel2 tickets) [⟨root, [':'], 0⟩]
    (sdInit tickets) [] hok2 hphi2
  obtain ⟨sd, hsd⟩ := Option.isSome_iff_exists.mp h2
  rw [hsd]
  dsimp only
  unfold renderGo
  cases hfind : findT tickets root with
  | none => rfl
  | some node =>
    dsimp only
    have h3 := renderF_isSome tickets md sd full
      (renderFuel tickets (pathKey root)) (.node root "" (pathKey root) 0)
      [root] (endsWithL_concat (':' :: root.data) ':') (le_refl _)
    obtain ⟨⟨lines, pr⟩, hr⟩ := Option.isSome_iff_exists.mp h3
    rw [hr]
    rfl

/-- Modelled from the spec: `target` is reachable from `src` in exactly
`d` dependency steps along a non-cyclic path (no repeated vertex); this
renders the premise of the depth-selection claim checkable. -/
def reachAtDepth (g : List (String × Ticket)) (src target : String)
    (d : Nat) (visited : List String) : Bool :=
  match d with
  | 0 => src == target
  | d + 1 =>
    match findT g src with
    | none => false
    | some node =>
      node.deps.any (fun dep => !(dep == "")
        && !((src :: visited).contains dep)
        && reachAtDepth g dep target d (src :: visited))

/-- A ticket map where A is reachable from the root D at depths 1 and 3
(as in the claim) but also at depth 4 through the chain G1, G2, G3. -/
def g6 : List (String × Ticket) :=
  [("a", mkT "a" "A" []), ("b", mkT "b" "B" ["a"]),
   ("c", mkT "c" "C" ["b"]), ("g1", mkT "g1" "G1" ["g2"]),
   ("g2", mkT "g2" "G2" ["g3"]), ("g3", mkT "g3" "G3" ["a"]),
   ("d", mkT "d" "D" ["a", "c", "g1"])]


/-- Number of output lines that contain the given substring
(`strings.Count` of the tests, counting at most one hit per line). -/
def countLines (out : List String) (sub : String) : Nat :=
  (out.filter (fun l => strContains l.data sub.data)).length

/-- C6 counterexample: in `g6` the node `a` is reachable from the root at
depths 1 and 3 via non-cyclic paths, yet the builder records its
max-depth as 4 (not 3), because `a` is also reachable at depth 4; the
default render accordingly prints it once at render depth 4. -/
theorem deptree_maxdepth_not_three :
    reachAtDepth g6 "d" "a" 1 [] = true ∧
    reachAtDepth g6 "d" "a" 3 [] = true ∧
    (buildMD g6 "d").map (fun md => mdGet md "a") = some 4 ∧
    (deptreeGo g6 "d" false) = some
      ["d [open] D", "├── c [open] C", "│   └── b [open] B",
       "└── g1 [open] G1", "    └── g2 [open] G2",
       "        └── g3 [open] G3", "            └── a [open] A"] := by
  refine ⟨by decide, by decide, by decide, by decide⟩

/-- A non-cyclic path visits each stored ID at most once, so its length
is bounded by the number of IDs not yet visited: the depth premise of the
depth-selection claim can only hold for finitely many depths. -/
theorem reachAtDepth_le (g : List (String × Ticket)) :
    ∀ d (src target : String) (visited : List String),
      visited.contains src = false →
      reachAtDepth g src target d visited = true →
      d ≤ ((g.map Prod.fst).filter
        (fun k => !(visited.contains k))).length := by
  intro d
  induction d with
  | zero => exact fun src target visited _ _ => Nat.zero_le _
  | succ d ih =>
    intro src target visited hsrc hr
    simp only [reachAtDepth] at hr
    cases hfind : findT g src with
    | none => rw [hfind] at hr; cases hr
    | some node =>
      rw [hfind] at hr
      dsimp only at hr
      obtain ⟨dep, hdepmem, hconj⟩ := List.any_eq_true.mp hr
      simp only [Bool.and_eq_true] at hconj
      obtain ⟨⟨hne, hnm⟩, hrec⟩ := hconj
      rw [Bool.not_eq_true'] at hnm
      have hrec' := ih dep target (src :: visited) hnm hrec
      have himp : ∀ x : String,
          (!((src :: visited).contains x)) = true →
          (!(visited.contains x)) = true := by
        intro x hx
        rw [Bool.not_eq_true'] at hx ⊢
        cases hv : visited.contains x with
        | false => rfl
        | true =>
          rw [List.contains_cons, hv, Bool.or_true] at hx
          cases hx
      have hq : (!((src :: visited).contains src)) = false := by
        simp [List.contains_cons]
      have hp : (!(visited.contains src)) = true := by
        rw [hsrc]
        rfl
      have hlt := filter_length_lt (g.map Prod.fst)
        (fun k => !(visited.contains k))
        (fun k => !((src :: visited).contains k))
        himp src (findT_mem_keys g src node hfind) hp hq
      omega

/-- C6 (amended, instance): in the `TestMaxDepthComputation` map, where
`a-1111` is reachable from the root at depths 1 and 3 and — by the third
conjunct — at no other depth, the builder records its max-depth as 3 and
the default render prints it exactly once, as a child at render depth 3
(the innermost line of the output) and at no other depth.  Reachability
at depths 1 and 3 alone does not fix the max-depth: see the
counterexample above. -/
theorem deptree_maxdepth_deepest :
    reachAtDepth gMax "d-4444" "a-1111" 1 [] = true ∧
    reachAtDepth gMax "d-4444" "a-1111" 3 [] = true ∧
    (∀ d, reachAtDepth gMax "d-4444" "a-1111" d [] = true →
      d = 1 ∨ d = 3) ∧
    (buildMD gMax "d-4444").map (fun md => mdGet md "a-1111") = some 3 ∧
    deptreeGo gMax "d-4444" false = some
      ["d-4444 [open] Ticket D", "└── c-3333 [open] Ticket C",
       "    └── b-2222 [open] Ticket B",
       "        └── a-1111 [open] Ticket A"] := by
  refine ⟨by decide, by decide, ?_, by decide, by decide⟩
  intro d hd
  have hle := reachAtDepth_le gMax d "d-4444" "a-1111" [] (by decide) hd
  have h4 : ((gMax.map Prod.fst).filter
      (fun k => !(([] : List String).contains k))).length = 4 := by decide
  rw [h4] at hle
  interval_cases d
  · exact absurd hd (by decide)
  · exact Or.inl rfl
  · exact absurd hd (by decide)
  · exact Or.inr rfl
  · exact absurd hd (by decide)

/-- C6 witness: the only-depths conjunct applied at depth 3. -/
theorem deptree_maxdepth_deepest_witness :
    reachAtDepth gMax "d-4444" "a-1111" 3 [] = true ∧ (3 = 1 ∨ 3 = 3) :=
  ⟨by decide, deptree_maxdepth_deepest.2.2.1 3 (by decide)⟩

/-- C7: deduplication on the diamond.  With root D, default-mode render
prints the line for A exactly once, while full-mode render prints it
at least twice. -/
theorem deptree_diamond_dedup :
    (deptreeGo gDiamond "d-4444" false).map
      (fun out => countLines out "a-1111") = some 1 ∧
    ∃ n, (deptreeGo gDiamond "d-4444" true).map
        (fun out => countLines out "a-1111") = some n ∧ 2 ≤ n :=
  ⟨by decide, 2, by decide, by omega⟩
